import Mathlib

/-!
Verification of the floor-plan image-processing core (`ImageProcessor` in
`src/App.tsx`) against its natural-language specification.

The TypeScript pipeline is shallowly embedded:
* pixel coordinates are `ℤ × ℤ` (JS numbers holding integer pixel indices);
* JS number arithmetic on areas, aspect ratios and scale factors is modeled
  in `ℚ` (all values arising here are exact rationals);
* the `Set<string>` of visited keys `"x,y"` (injective in the coordinate
  pair) is an explicit characteristic function `(ℤ × ℤ) → Bool`;
* the `while` loop of `traceContour` is a fuel-based recursion; the fuel
  `10*width*height + |stack| + 1` is proved sufficient below, so the
  embedded function agrees with the source loop on every input;
* `ImageData` buffers are functions `ℕ → ℕ` from byte index to byte value;
  reads outside the buffer yield `undefined` in JS, and `undefined > 128`
  is `false`, which the embedding reflects by bounds tests;
* assigning a non-integer to `canvas.width` truncates (WebIDL unsigned
  long conversion), and `getImageData` with a zero width or height throws
  an `IndexSizeError`; both behaviors are modeled explicitly;
* the browser's image decoder and the resampling performed by `drawImage`
  are external to the repository and are abstract parameters.
-/

namespace FloorPlan

/-- A pixel coordinate, as in the source's `Point` (`{x, y}`). -/
abbrev Pt := ℤ × ℤ

/-- An RGBA pixel buffer: `ImageData`-like, `data` maps byte index to byte. -/
structure Img where
  width : ℕ
  height : ℕ
  data : ℕ → ℕ

/-- `getGray`: unweighted mean of the R, G, B channels at `(x, y)`. -/
def getGray (data : ℕ → ℕ) (x y w : ℕ) : ℚ :=
  ((data ((y * w + x) * 4) : ℚ) + (data ((y * w + x) * 4 + 1) : ℚ)
    + (data ((y * w + x) * 4 + 2) : ℚ)) / 3

/-- Horizontal Sobel response `gx` at interior pixel `(x, y)` (callers
guarantee `1 ≤ x` and `1 ≤ y`, so natural subtraction is exact). -/
def sobelGx (data : ℕ → ℕ) (w x y : ℕ) : ℚ :=
  -1 * getGray data (x - 1) (y - 1) w + 1 * getGray data (x + 1) (y - 1) w
    + -2 * getGray data (x - 1) y w + 2 * getGray data (x + 1) y w
    + -1 * getGray data (x - 1) (y + 1) w + 1 * getGray data (x + 1) (y + 1) w

/-- Vertical Sobel response `gy` at interior pixel `(x, y)`. -/
def sobelGy (data : ℕ → ℕ) (w x y : ℕ) : ℚ :=
  -1 * getGray data (x - 1) (y - 1) w + -2 * getGray data x (y - 1) w
    + -1 * getGray data (x + 1) (y - 1) w + 1 * getGray data (x - 1) (y + 1) w
    + 2 * getGray data x (y + 1) w + 1 * getGray data (x + 1) (y + 1) w

/-- The byte written to the R, G, B channels of the edge mask:
`Math.sqrt(gx*gx + gy*gy) > 50` is equivalent to `gx^2 + gy^2 > 2500`
since both sides are nonnegative. -/
def edgeValue (data : ℕ → ℕ) (w x y : ℕ) : ℕ :=
  if (sobelGx data w x y) ^ 2 + (sobelGy data w x y) ^ 2 > 2500 then 255 else 0

/-- `detectEdges`: a fresh `ImageData` (zero-initialized) where each interior
pixel's R, G, B channels get `edgeValue` and its alpha gets 255; the 1-pixel
border (and everything outside the buffer) stays 0. The imperative
double loop writes exactly the byte indices `(y*w + x)*4 + ch` with
`1 ≤ x ≤ w-2`, `1 ≤ y ≤ h-2`; decoding `k` as `ch = k % 4`, `x = (k/4) % w`,
`y = (k/4) / w` recovers that write pattern. -/
def detectEdges (img : Img) : Img :=
  { width := img.width
    height := img.height
    data := fun k =>
      let i := k / 4
      let x := i % img.width
      let y := i / img.width
      if 1 ≤ x ∧ x + 1 < img.width ∧ 1 ≤ y ∧ y + 1 < img.height then
        if k % 4 = 3 then 255 else edgeValue img.data img.width x y
      else 0 }

/-- The edge-pixel test `edges.data[(y*width + x)*4] > 128` used by the
region tracer, bundled with the bounds of the buffer: an out-of-range read
yields `undefined` in JS and `undefined > 128` is `false`. -/
def edgeAt (img : Img) (p : Pt) : Bool :=
  decide (0 ≤ p.1) && decide (p.1 < (img.width : ℤ)) &&
  decide (0 ≤ p.2) && decide (p.2 < (img.height : ℤ)) &&
  decide (128 < img.data ((p.2.toNat * img.width + p.1.toNat) * 4))

/-- The 8-neighborhood offsets `(dx, dy)` in the order of the source's
nested `for (dy) for (dx)` loops; `(0,0)` is included as in the source
(it is never pushed, being already visited at push time). -/
def offsets : List Pt :=
  [(-1, -1), (0, -1), (1, -1), (-1, 0), (0, 0), (1, 0), (-1, 1), (0, 1), (1, 1)]

/-- `visited.add(key)` on the characteristic function of visited pixels. -/
def visit (v : Pt → Bool) (p : Pt) : Pt → Bool :=
  fun q => if q = p then true else v q

/-- The in-bounds, not-yet-visited neighbors pushed when pixel `p` is
collected, in push order. -/
def pushNeighbors (img : Img) (v : Pt → Bool) (p : Pt) : List Pt :=
  (offsets.map fun d => (p.1 + d.1, p.2 + d.2)).filter fun n =>
    decide (0 ≤ n.1) && decide (n.1 < (img.width : ℤ)) &&
    decide (0 ≤ n.2) && decide (n.2 < (img.height : ℤ)) && !(v n)

/-- The body of `traceContour`'s `while (stack.length > 0 && contour.length
< 1000)` loop, with fuel. The JS stack pushes/pops at the array's end; here
the top is the list head, so pushing the neighbor list reverses it. The
contour accumulator is kept reversed and restored on exit. On fuel
exhaustion the current state is returned; `traceFuel` below always provides
enough fuel (`traceGo_adequate`), so that branch is never the real exit. -/
def traceGo (img : Img) :
    ℕ → (Pt → Bool) → List Pt → List Pt → List Pt × List Pt × (Pt → Bool)
  | 0, v, stack, contour => (contour.reverse, stack, v)
  | _ + 1, v, [], contour => (contour.reverse, [], v)
  | fuel + 1, v, p :: rest, contour =>
    if 1000 ≤ contour.length then (contour.reverse, p :: rest, v)
    else
      if v p then traceGo img fuel v rest contour
      else
        if edgeAt img p then
          traceGo img fuel (visit v p)
            ((pushNeighbors img (visit v p) p).reverse ++ rest) (p :: contour)
        else traceGo img fuel (visit v p) rest contour

/-- Fuel sufficient for `traceGo` to run the loop to its genuine exit. -/
def traceFuel (img : Img) (stack : List Pt) : ℕ :=
  10 * (img.width * img.height) + stack.length + 1

/-- `traceContour`, as called with an initial stack: returns the collected
contour, the stack at loop exit (empty unless the 1000-point cap fired),
and the updated visited set. -/
def traceContour (img : Img) (v : Pt → Bool) (stack : List Pt) :
    List Pt × List Pt × (Pt → Bool) :=
  traceGo img (traceFuel img stack) v stack []

/-- All pixels of a `w × h` image in raster order (row-major,
top-to-bottom, left-to-right) — the scan order of `findContours`. -/
def allPts (w h : ℕ) : List Pt :=
  (List.range h).flatMap fun (y : ℕ) => (List.range w).map fun (x : ℕ) => ((x : ℤ), (y : ℤ))

/-- One step of the `findContours` raster scan: skip visited pixels, start
a trace at an unvisited edge pixel, and keep the contour if it has more
than 10 points. -/
def scanStep (img : Img) (s : (Pt → Bool) × List (List Pt)) (p : Pt) :
    (Pt → Bool) × List (List Pt) :=
  if s.1 p then s
  else if edgeAt img p then
    let t := traceContour img s.1 [p]
    if 10 < t.1.length then (t.2.2, s.2 ++ [t.1]) else (t.2.2, s.2)
  else s

/-- `findContours`: raster scan with a shared visited set, initially empty. -/
def findContours (img : Img) : List (List Pt) :=
  ((allPts img.width img.height).foldl (scanStep img) (fun _ => false, [])).2

/-- The shoelace accumulation of `calculateArea`: for each index `i`,
add `x_i * y_j - x_j * y_i` where `j = (i+1) % n`. -/
def shoelaceSum (points : List Pt) : ℤ :=
  (List.range points.length).foldl
    (fun a i =>
      let p := points.getD i (0, 0)
      let q := points.getD ((i + 1) % points.length) (0, 0)
      a + (p.1 * q.2 - q.1 * p.2)) 0

/-- `calculateArea`: 0 for fewer than 3 points, else `|shoelace| / 2`. -/
def calculateArea (points : List Pt) : ℚ :=
  if points.length < 3 then 0 else ((shoelaceSum points).natAbs : ℚ) / 2

/-- The record returned by `getBounds`. -/
structure Bounds where
  minX : ℚ
  maxX : ℚ
  minY : ℚ
  maxY : ℚ
  width : ℚ
  height : ℚ
  deriving DecidableEq

/-- `getBounds`: axis-aligned min/max of the coordinates, plus extents.
`Math.min()` of an empty list is `+Infinity` in JS; the empty case never
occurs (contours reaching the classifier have more than 10 points) and is
given a dummy value here. -/
def getBounds (points : List Pt) : Bounds :=
  match points with
  | [] => ⟨0, 0, 0, 0, 0, 0⟩
  | p :: rest =>
    let minX : ℚ := (rest.foldl (fun m q => min m q.1) p.1 : ℤ)
    let maxX : ℚ := (rest.foldl (fun m q => max m q.1) p.1 : ℤ)
    let minY : ℚ := (rest.foldl (fun m q => min m q.2) p.2 : ℤ)
    let maxY : ℚ := (rest.foldl (fun m q => max m q.2) p.2 : ℤ)
    ⟨minX, maxX, minY, maxY, maxX - minX, maxY - minY⟩

/-- The four structural categories. -/
inductive CType
  | wall
  | door
  | window
  | room
  deriving DecidableEq

/-- The per-contour decision of `classifyContours`' loop body, as a pure
function of the computed area, the bounds, and the working-image
dimensions. `none` means the contour is dropped. -/
def classifyDecision (area : ℚ) (b : Bounds) (w h : ℚ) : Option CType :=
  let aspect := b.width / (b.height + 1e-9)
  if area > 5000 then
    if (b.minX ≤ 5 ∨ b.minY ≤ 5 ∨ b.maxX ≥ w - 5 ∨ b.maxY ≥ h - 5)
        ∨ aspect > 3 ∨ aspect < 0.33 then
      some .wall
    else some .room
  else if area > 1000 ∧ area ≤ 5000 then
    if aspect > 0.4 ∧ aspect < 2.5 then some .door else some .wall
  else if area > 200 ∧ area ≤ 1000 then
    if aspect > 2 ∨ aspect < 0.5 then some .window else none
  else none

/-- A classified contour: the traced points, the derived area, the tag. -/
structure Contour where
  points : List Pt
  area : ℚ
  ctype : CType
  deriving DecidableEq

/-- The four category lists built by `classifyContours`. -/
structure Classified where
  walls : List Contour
  doors : List Contour
  windows : List Contour
  rooms : List Contour
  deriving DecidableEq

/-- One iteration of `classifyContours`' loop: compute area and bounds,
decide, and push onto the matching category list (JS `push` appends). -/
def classifyStep (w h : ℚ) (s : Classified) (points : List Pt) : Classified :=
  let area := calculateArea points
  let b := getBounds points
  match classifyDecision area b w h with
  | some .wall => { s with walls := s.walls ++ [⟨points, area, .wall⟩] }
  | some .door => { s with doors := s.doors ++ [⟨points, area, .door⟩] }
  | some .window => { s with windows := s.windows ++ [⟨points, area, .window⟩] }
  | some .room => { s with rooms := s.rooms ++ [⟨points, area, .room⟩] }
  | none => s

/-- `classifyContours` over the traced contour list. -/
def classifyContours (contours : List (List Pt)) (w h : ℚ) : Classified :=
  contours.foldl (classifyStep w h) ⟨[], [], [], []⟩

/-- The two failure modes of a `processImage` call: the image element's
`onerror` rejection (`Failed to load image`, the spec's `DecodeError`),
and the `IndexSizeError` thrown by `getImageData` when the canvas width
or height is zero. -/
inductive PErr
  | decodeFail
  | indexSize
  deriving DecidableEq

/-- The terminal `ProcessingResult`. -/
structure ProcessingResult extends Classified where
  scale : ℚ
  imageWidth : ℕ
  imageHeight : ℕ

/-- `analyzeFloorPlan`. `scale = min(800/w, 800/h, 1)` in JS evaluates the
nested `Math.min` left to right. Assigning `img.width * scale` to
`canvas.width` truncates to an integer (WebIDL unsigned long conversion),
hence the floors. When either canvas dimension truncates to zero,
`getImageData(0, 0, 0, 0)` throws an `IndexSizeError`, which the `catch`
in `processImage` turns into a rejection. The pixel content of the
downscaled buffer comes from `drawImage`'s resampling, which is
browser-supplied and enters as the abstract `resample` parameter. -/
def analyzeFloorPlan (resample : Img → ℕ → ℕ → ℕ → ℕ) (img : Img) :
    Except PErr ProcessingResult :=
  let scale : ℚ := min (min (800 / (img.width : ℚ)) (800 / (img.height : ℚ))) 1
  let cw : ℕ := (⌊(img.width : ℚ) * scale⌋).toNat
  let ch : ℕ := (⌊(img.height : ℚ) * scale⌋).toNat
  if cw = 0 ∨ ch = 0 then .error .indexSize
  else
    let working : Img := ⟨cw, ch, resample img cw ch⟩
    let edges := detectEdges working
    let contours := findContours edges
    let c := classifyContours contours (cw : ℚ) (ch : ℚ)
    .ok { toClassified := c, scale := scale, imageWidth := cw, imageHeight := ch }

/-- `processImage`: the browser's decoder is the abstract `decode`
parameter; decode failure rejects with the load error, success runs
`analyzeFloorPlan` and propagates its outcome. -/
def processImage (decode : List ℕ → Option Img) (resample : Img → ℕ → ℕ → ℕ → ℕ)
    (bytes : List ℕ) : Except PErr ProcessingResult :=
  match decode bytes with
  | none => .error .decodeFail
  | some img => analyzeFloorPlan resample img

/-! ### Auxiliary notions for the region-tracer proofs -/

/-- `p` lies inside the pixel buffer of `img`. -/
def inB (img : Img) (p : Pt) : Prop :=
  0 ≤ p.1 ∧ p.1 < (img.width : ℤ) ∧ 0 ≤ p.2 ∧ p.2 < (img.height : ℤ)

instance (img : Img) (p : Pt) : Decidable (inB img p) := by
  unfold inB; infer_instance

/-- `q` is one of the 9 offset neighbors of `p` (8-neighborhood plus `p`). -/
def adjp (p q : Pt) : Prop :=
  ∃ d ∈ offsets, q = (p.1 + d.1, p.2 + d.2)

/-- Edge-pixel reachability: a path from `a` whose every step lands on an
edge pixel 8-adjacent to its predecessor. -/
def Reach (img : Img) (a b : Pt) : Prop :=
  Relation.ReflTransGen (fun x y => edgeAt img y = true ∧ adjp x y) a b

/-- Number of pixels of the image not yet visited (the decreasing part of
the loop measure). -/
def unseenCnt (img : Img) (v : Pt → Bool) : ℕ :=
  (allPts img.width img.height).countP fun q => !v q

/-- The signed shoelace polygon area as the spec words it: one half of
`∑ i, (x_i * y_{i+1 mod n} - x_{i+1 mod n} * y_i)`. Used to compare the
source's `calculateArea` against the spec's formula. -/
def specSignedArea (points : List Pt) : ℚ :=
  ((∑ i ∈ Finset.range points.length,
      ((points.getD i (0, 0)).1 * (points.getD ((i + 1) % points.length) (0, 0)).2
        - (points.getD ((i + 1) % points.length) (0, 0)).1 * (points.getD i (0, 0)).2)
    : ℤ)) / 2

/-- All contours of a classification result, over the four categories. -/
def allContours (c : Classified) : List Contour :=
  c.walls ++ c.doors ++ c.windows ++ c.rooms

/-- A 1020 × 1 mask whose every pixel is an edge pixel (red channel 255):
one 8-connected blob of 1020 pixels, exceeding the 1000-point cap. -/
def bigLine : Img :=
  ⟨1020, 1, fun k => if k % 4 = 0 ∧ k / 4 < 1020 then 255 else 0⟩

/-- The visited set after a trace on a one-row mask starting from visited
set `v0` has additionally collected the pixels `(a,0) … (a+k-1,0)`. -/
def lineVisG (v0 : Pt → Bool) (a : ℕ) : ℕ → (Pt → Bool)
  | 0 => v0
  | k + 1 => visit (lineVisG v0 a k) (((a + k : ℕ) : ℤ), 0)

/-- The contour accumulator (reversed) after collecting `(0,0) … (k-1,0)`
on `bigLine`, starting the trace at `(a,0)`. -/
def lineCtr (a : ℕ) : ℕ → List Pt
  | 0 => []
  | k + 1 => (((a + k : ℕ) : ℤ), 0) :: lineCtr a k

/-- A 56 × 1 mask with two 8-connected edge blobs: 50 pixels at
`x = 0 … 49` and 5 pixels at `x = 51 … 55` (separated by the background
column `x = 50`). -/
def twoBlob : Img :=
  ⟨56, 1, fun k => if k % 4 = 0 ∧ (k / 4 < 50 ∨ (51 ≤ k / 4 ∧ k / 4 < 56)) then 255 else 0⟩

/-- The 50-pixel blob of `twoBlob` as a point set. -/
def blobA : Finset Pt := (Finset.range 50).image fun (x : ℕ) => ((x : ℤ), (0 : ℤ))

/-- The 5-pixel blob of `twoBlob` as a point set. -/
def blobB : Finset Pt := (Finset.range 5).image fun (x : ℕ) => (((51 + x : ℕ) : ℤ), (0 : ℤ))

/-- A 16 × 1 mask with a single 12-pixel edge run at `x = 0 … 11`. -/
def line12 : Img :=
  ⟨16, 1, fun k => if k % 4 = 0 ∧ k / 4 < 12 then 255 else 0⟩

/-- An 8 × 8 image, black on the left half (`x < 4`), white on the right:
the Sobel detector marks the twelve interior pixels of columns 3 and 4. -/
def img8 : Img := ⟨8, 8, fun k => if (k / 4) % 8 < 4 then 0 else 255⟩

/-- A 900 × 300 all-black source image (no edges). -/
def img900 : Img := ⟨900, 300, fun _ => 0⟩

/-- A degenerate resampler (all-black working buffer); any fixed function
stands in for the browser's `drawImage` interpolation. -/
def zeroResample : Img → ℕ → ℕ → ℕ → ℕ := fun _ _ _ _ => 0

/-- A decoder that decodes every byte stream to a 1 × 801 image — a
perfectly decodable, extremely tall and thin raster. -/
def decode801 : List ℕ → Option Img := fun _ => some ⟨1, 801, fun _ => 0⟩

/-- The error component of a pipeline outcome, for stating concrete
failure facts (`ProcessingResult` carries no decidable equality). -/
def errOf : Except PErr ProcessingResult → Option PErr
  | .error e => some e
  | .ok _ => none

theorem visit_eq_true_iff (v : Pt → Bool) (p q : Pt) :
    visit v p q = true ↔ q = p ∨ v q = true := by
  by_cases h : q = p <;> simp [visit, h]

theorem visit_self (v : Pt → Bool) (p : Pt) : visit v p p = true := by
  simp [visit]

theorem visit_mono (v : Pt → Bool) (p q : Pt) (h : v q = true) :
    visit v p q = true := by
  simp [visit_eq_true_iff, h]

theorem edgeAt_inB (img : Img) (p : Pt) (h : edgeAt img p = true) : inB img p := by
  simp only [edgeAt, Bool.and_eq_true, decide_eq_true_eq] at h
  exact ⟨h.1.1.1.1, h.1.1.1.2, h.1.1.2, h.1.2⟩

theorem adjp_self (p : Pt) : adjp p p := by
  refine ⟨(0, 0), by simp [offsets], by simp⟩

theorem mem_allPts (w h : ℕ) (p : Pt) :
    p ∈ allPts w h ↔ 0 ≤ p.1 ∧ p.1 < (w : ℤ) ∧ 0 ≤ p.2 ∧ p.2 < (h : ℤ) := by
  unfold allPts
  rw [List.mem_flatMap]
  constructor
  · rintro ⟨y, hy, hp⟩
    rw [List.mem_map] at hp
    obtain ⟨x, hx, rfl⟩ := hp
    rw [List.mem_range] at hy hx
    refine ⟨?_, ?_, ?_, ?_⟩ <;> simp <;> omega
  · rintro ⟨h1, h2, h3, h4⟩
    refine ⟨p.2.toNat, by rw [List.mem_range]; omega, ?_⟩
    rw [List.mem_map]
    refine ⟨p.1.toNat, by rw [List.mem_range]; omega, ?_⟩
    obtain ⟨a, b⟩ := p
    simp only [Prod.mk.injEq]
    constructor <;> simp <;> omega

theorem length_allPts (w h : ℕ) : (allPts w h).length = h * w := by
  unfold allPts
  induction h with
  | zero => simp
  | succ n ih =>
    rw [List.range_succ, List.flatMap_append, List.length_append, ih]
    simp [Nat.succ_mul]

theorem unseenCnt_le (img : Img) (v : Pt → Bool) :
    unseenCnt img v ≤ img.height * img.width := by
  calc unseenCnt img v ≤ (allPts img.width img.height).length :=
        List.countP_le_length _
    _ = img.height * img.width := length_allPts _ _

theorem countP_not_visit_le (l : List Pt) (v : Pt → Bool) (p : Pt) :
    (l.countP fun q => !(visit v p) q) ≤ l.countP fun q => !v q := by
  apply List.countP_mono_left
  intro a _ ha
  simp only [Bool.not_eq_true'] at ha ⊢
  simp only [visit] at ha
  by_cases h : a = p
  · simp [h] at ha
  · simpa [h] using ha

theorem countP_not_visit_lt (l : List Pt) (v : Pt → Bool) (p : Pt)
    (hmem : p ∈ l) (hv : v p = false) :
    (l.countP fun q => !(visit v p) q) < l.countP fun q => !v q := by
  induction l with
  | nil => cases hmem
  | cons a l ih =>
    rw [List.countP_cons, List.countP_cons]
    by_cases hap : a = p
    · subst hap
      have hle := countP_not_visit_le l v a
      rw [visit_self, hv]
      simp only [Bool.not_true, Bool.not_false]
      simp
      omega
    · have hmem' : p ∈ l := by
        rcases List.mem_cons.mp hmem with h | h
        · exact absurd h.symm hap
        · exact h
      have heq : visit v p a = v a := by simp [visit, hap]
      rw [heq]
      exact Nat.add_lt_add_right (ih hmem') _

theorem unseenCnt_visit_le (img : Img) (v : Pt → Bool) (p : Pt) :
    unseenCnt img (visit v p) ≤ unseenCnt img v :=
  countP_not_visit_le _ _ _

theorem unseenCnt_visit_lt (img : Img) (v : Pt → Bool) (p : Pt)
    (hin : inB img p) (hv : v p = false) :
    unseenCnt img (visit v p) < unseenCnt img v := by
  apply countP_not_visit_lt
  · exact (mem_allPts _ _ _).mpr ⟨hin.1, hin.2.1, hin.2.2.1, hin.2.2.2⟩
  · exact hv

theorem mem_pushNeighbors (img : Img) (v : Pt → Bool) (p q : Pt) :
    q ∈ pushNeighbors img v p ↔ adjp p q ∧ inB img q ∧ v q = false := by
  simp only [pushNeighbors, List.mem_filter, List.mem_map, adjp, inB,
    Bool.and_eq_true, decide_eq_true_eq, Bool.not_eq_true']
  constructor
  · rintro ⟨⟨d, hd, rfl⟩, hb⟩
    exact ⟨⟨d, hd, rfl⟩, ⟨hb.1.1.1.1, hb.1.1.1.2, hb.1.1.2, hb.1.2⟩, hb.2⟩
  · rintro ⟨⟨d, hd, rfl⟩, hb, hv⟩
    exact ⟨⟨d, hd, rfl⟩, ⟨⟨⟨⟨hb.1, hb.2.1⟩, hb.2.2.1⟩, hb.2.2.2⟩, hv⟩⟩

theorem length_pushNeighbors_le (img : Img) (v : Pt → Bool) (p : Pt) :
    (pushNeighbors img v p).length ≤ 9 := by
  calc (pushNeighbors img v p).length
      ≤ ((offsets.map fun d => (p.1 + d.1, p.2 + d.2)).length) :=
        List.length_filter_le _ _
    _ = 9 := by simp [offsets]

/-! ### Invariants of the `traceContour` loop -/

theorem traceGo_visited_mono (img : Img) :
    ∀ (fuel : ℕ) (v : Pt → Bool) (stack contour : List Pt) (q : Pt),
      v q = true → (traceGo img fuel v stack contour).2.2 q = true := by
  intro fuel
  induction fuel with
  | zero => intro v stack contour q h; simpa [traceGo] using h
  | succ n ih =>
    intro v stack contour q h
    cases stack with
    | nil => rw [traceGo]; exact h
    | cons p rest =>
      rw [traceGo]
      by_cases hc : 1000 ≤ contour.length
      · rw [if_pos hc]; exact h
      · rw [if_neg hc]
        by_cases hv : v p = true
        · rw [if_pos hv]; exact ih v rest contour q h
        · rw [if_neg hv]
          by_cases he : edgeAt img p = true
          · rw [if_pos he]; exact ih _ _ _ q (visit_mono v p q h)
          · rw [if_neg he]; exact ih _ _ _ q (visit_mono v p q h)

theorem traceGo_contour_extend (img : Img) :
    ∀ (fuel : ℕ) (v : Pt → Bool) (stack contour : List Pt) (q : Pt),
      q ∈ contour → q ∈ (traceGo img fuel v stack contour).1 := by
  intro fuel
  induction fuel with
  | zero => intro v stack contour q h; simpa [traceGo] using h
  | succ n ih =>
    intro v stack contour q h
    cases stack with
    | nil => rw [traceGo]; simpa using h
    | cons p rest =>
      rw [traceGo]
      by_cases hc : 1000 ≤ contour.length
      · rw [if_pos hc]; simpa using h
      · rw [if_neg hc]
        by_cases hv : v p = true
        · rw [if_pos hv]; exact ih v rest contour q h
        · rw [if_neg hv]
          by_cases he : edgeAt img p = true
          · rw [if_pos he]; exact ih _ _ _ q (List.mem_cons_of_mem p h)
          · rw [if_neg he]; exact ih _ _ _ q h

theorem traceGo_contour_src (img : Img) :
    ∀ (fuel : ℕ) (v : Pt → Bool) (stack contour : List Pt) (q : Pt),
      q ∈ (traceGo img fuel v stack contour).1 →
      q ∈ contour ∨ edgeAt img q = true := by
  intro fuel
  induction fuel with
  | zero => intro v stack contour q h; simp [traceGo] at h; exact Or.inl h
  | succ n ih =>
    intro v stack contour q h
    cases stack with
    | nil => rw [traceGo] at h; simp at h; exact Or.inl h
    | cons p rest =>
      rw [traceGo] at h
      by_cases hc : 1000 ≤ contour.length
      · rw [if_pos hc] at h; simp at h; exact Or.inl h
      · rw [if_neg hc] at h
        by_cases hv : v p = true
        · rw [if_pos hv] at h; exact ih v rest contour q h
        · rw [if_neg hv] at h
          by_cases he : edgeAt img p = true
          · rw [if_pos he] at h
            rcases ih _ _ _ q h with hq | hq
            · rcases List.mem_cons.mp hq with rfl | hq
              · exact Or.inr he
              · exact Or.inl hq
            · exact Or.inr hq
          · rw [if_neg he] at h; exact ih _ _ _ q h

theorem traceGo_contour_visited (img : Img) :
    ∀ (fuel : ℕ) (v : Pt → Bool) (stack contour : List Pt),
      (∀ p ∈ contour, v p = true) →
      ∀ q ∈ (traceGo img fuel v stack contour).1,
        (traceGo img fuel v stack contour).2.2 q = true := by
  intro fuel
  induction fuel with
  | zero =>
    intro v stack contour hctr q h
    rw [traceGo] at h ⊢
    exact hctr q (by simpa using h)
  | succ n ih =>
    intro v stack contour hctr q h
    cases stack with
    | nil => rw [traceGo] at h ⊢; exact hctr q (by simpa using h)
    | cons p rest =>
      rw [traceGo] at h ⊢
      by_cases hc : 1000 ≤ contour.length
      · rw [if_pos hc] at h ⊢; exact hctr q (by simpa using h)
      · rw [if_neg hc] at h ⊢
        by_cases hv : v p = true
        · rw [if_pos hv] at h ⊢; exact ih v rest contour hctr q h
        · rw [if_neg hv] at h ⊢
          by_cases he : edgeAt img p = true
          · rw [if_pos he] at h ⊢
            refine ih _ _ _ ?_ q h
            intro r hr
            rcases List.mem_cons.mp hr with rfl | hr
            · exact visit_self v r
            · exact visit_mono v p r (hctr r hr)
          · rw [if_neg he] at h ⊢
            refine ih _ _ _ ?_ q h
            intro r hr
            exact visit_mono v p r (hctr r hr)

theorem traceGo_nodup (img : Img) :
    ∀ (fuel : ℕ) (v : Pt → Bool) (stack contour : List Pt),
      (∀ p ∈ contour, v p = true) → contour.Nodup →
      (traceGo img fuel v stack contour).1.Nodup := by
  intro fuel
  induction fuel with
  | zero => intro v stack contour _ hnd; rw [traceGo]; simpa using hnd
  | succ n ih =>
    intro v stack contour hctr hnd
    cases stack with
    | nil => rw [traceGo]; simpa using hnd
    | cons p rest =>
      rw [traceGo]
      by_cases hc : 1000 ≤ contour.length
      · rw [if_pos hc]; simpa using hnd
      · rw [if_neg hc]
        by_cases hv : v p = true
        · rw [if_pos hv]; exact ih v rest contour hctr hnd
        · rw [if_neg hv]
          by_cases he : edgeAt img p = true
          · rw [if_pos he]
            refine ih _ _ _ ?_ ?_
            · intro r hr
              rcases List.mem_cons.mp hr with rfl | hr
              · exact visit_self v r
              · exact visit_mono v p r (hctr r hr)
            · refine List.nodup_cons.mpr ⟨?_, hnd⟩
              intro hmem
              exact hv (hctr p hmem)
          · rw [if_neg he]
            refine ih _ _ _ ?_ hnd
            intro r hr
            exact visit_mono v p r (hctr r hr)

theorem traceGo_edge_char (img : Img) :
    ∀ (fuel : ℕ) (v : Pt → Bool) (stack contour : List Pt),
      (∀ p ∈ contour, v p = true) →
      ∀ q, edgeAt img q = true →
        ((traceGo img fuel v stack contour).2.2 q = true ↔
          v q = true ∨ q ∈ (traceGo img fuel v stack contour).1) := by
  intro fuel
  induction fuel with
  | zero =>
    intro v stack contour hctr q _
    rw [traceGo]
    constructor
    · exact Or.inl
    · rintro (h | h)
      · exact h
      · exact hctr q (by simpa using h)
  | succ n ih =>
    intro v stack contour hctr q hq
    cases stack with
    | nil =>
      rw [traceGo]
      constructor
      · exact Or.inl
      · rintro (h | h)
        · exact h
        · exact hctr q (by simpa using h)
    | cons p rest =>
      rw [traceGo]
      by_cases hc : 1000 ≤ contour.length
      · rw [if_pos hc]
        constructor
        · exact Or.inl
        · rintro (h | h)
          · exact h
          · exact hctr q (by simpa using h)
      · rw [if_neg hc]
        by_cases hv : v p = true
        · rw [if_pos hv]; exact ih v rest contour hctr q hq
        · rw [if_neg hv]
          by_cases he : edgeAt img p = true
          · rw [if_pos he]
            have hctr' : ∀ r ∈ p :: contour, visit v p r = true := by
              intro r hr
              rcases List.mem_cons.mp hr with rfl | hr
              · exact visit_self v r
              · exact visit_mono v p r (hctr r hr)
            rw [ih _ _ _ hctr' q hq]
            constructor
            · rintro (hvq | hmem)
              · rcases (visit_eq_true_iff v p q).mp hvq with rfl | hvq
                · exact Or.inr (traceGo_contour_extend img n _ _ _ q
                    (List.mem_cons_self q contour))
                · exact Or.inl hvq
              · exact Or.inr hmem
            · rintro (hvq | hmem)
              · exact Or.inl (visit_mono v p q hvq)
              · exact Or.inr hmem
          · rw [if_neg he]
            have hctr' : ∀ r ∈ contour, visit v p r = true := fun r hr =>
              visit_mono v p r (hctr r hr)
            rw [ih _ _ _ hctr' q hq]
            constructor
            · rintro (hvq | hmem)
              · rcases (visit_eq_true_iff v p q).mp hvq with rfl | hvq
                · exact absurd hq he
                · exact Or.inl hvq
              · exact Or.inr hmem
            · rintro (hvq | hmem)
              · exact Or.inl (visit_mono v p q hvq)
              · exact Or.inr hmem

theorem traceGo_len_le (img : Img) :
    ∀ (fuel : ℕ) (v : Pt → Bool) (stack contour : List Pt),
      contour.length ≤ 1000 →
      (traceGo img fuel v stack contour).1.length ≤ 1000 := by
  intro fuel
  induction fuel with
  | zero => intro v stack contour h; rw [traceGo]; simpa using h
  | succ n ih =>
    intro v stack contour h
    cases stack with
    | nil => rw [traceGo]; simpa using h
    | cons p rest =>
      rw [traceGo]
      by_cases hc : 1000 ≤ contour.length
      · rw [if_pos hc]; simpa using h
      · rw [if_neg hc]
        by_cases hv : v p = true
        · rw [if_pos hv]; exact ih v rest contour h
        · rw [if_neg hv]
          by_cases he : edgeAt img p = true
          · rw [if_pos he]
            exact ih _ _ _ (by simp; omega)
          · rw [if_neg he]; exact ih _ _ _ h

theorem traceGo_exit (img : Img) :
    ∀ (fuel : ℕ) (v : Pt → Bool) (stack contour : List Pt),
      10 * unseenCnt img v + stack.length < fuel → contour.length ≤ 1000 →
      (traceGo img fuel v stack contour).2.1 = [] ∨
        (traceGo img fuel v stack contour).1.length = 1000 := by
  intro fuel
  induction fuel with
  | zero => intro v stack contour hf _; omega
  | succ n ih =>
    intro v stack contour hf hlen
    cases stack with
    | nil => rw [traceGo]; exact Or.inl rfl
    | cons p rest =>
      rw [traceGo]
      by_cases hc : 1000 ≤ contour.length
      · rw [if_pos hc]
        refine Or.inr ?_
        simp only [List.length_reverse]
        omega
      · rw [if_neg hc]
        rw [List.length_cons] at hf
        by_cases hv : v p = true
        · rw [if_pos hv]
          exact ih v rest contour (by omega) hlen
        · rw [if_neg hv]
          have hvf : v p = false := Bool.not_eq_true _ ▸ (by simpa using hv)
          by_cases he : edgeAt img p = true
          · rw [if_pos he]
            have hu : unseenCnt img (visit v p) < unseenCnt img v :=
              unseenCnt_visit_lt img v p (edgeAt_inB img p he) hvf
            have hns : ((pushNeighbors img (visit v p) p).reverse ++ rest).length
                ≤ 9 + rest.length := by
              rw [List.length_append, List.length_reverse]
              have := length_pushNeighbors_le img (visit v p) p
              omega
            refine ih _ _ _ ?_ (by simp; omega)
            omega
          · rw [if_neg he]
            have hu : unseenCnt img (visit v p) ≤ unseenCnt img v :=
              unseenCnt_visit_le img v p
            exact ih _ _ _ (by omega) hlen

theorem traceGo_sound (img : Img) (s : Pt) :
    ∀ (fuel : ℕ) (v : Pt → Bool) (stack contour : List Pt),
      (∀ p ∈ stack, p = s ∨ ∃ r ∈ contour, adjp r p) →
      (∀ p ∈ contour, Reach img s p) →
      ∀ q ∈ (traceGo img fuel v stack contour).1, Reach img s q := by
  intro fuel
  induction fuel with
  | zero =>
    intro v stack contour _ hctr q hmem
    rw [traceGo] at hmem
    exact hctr q (by simpa using hmem)
  | succ n ih =>
    intro v stack contour hstk hctr q hmem
    cases stack with
    | nil =>
      rw [traceGo] at hmem
      exact hctr q (by simpa using hmem)
    | cons p rest =>
      rw [traceGo] at hmem
      by_cases hc : 1000 ≤ contour.length
      · rw [if_pos hc] at hmem
        exact hctr q (by simpa using hmem)
      · rw [if_neg hc] at hmem
        by_cases hv : v p = true
        · rw [if_pos hv] at hmem
          exact ih v rest contour
            (fun r hr => hstk r (List.mem_cons_of_mem p hr)) hctr q hmem
        · rw [if_neg hv] at hmem
          have hreach_p : edgeAt img p = true → Reach img s p := by
            intro he
            rcases hstk p (List.mem_cons_self p rest) with rfl | ⟨r, hr, hadj⟩
            · exact Relation.ReflTransGen.refl
            · exact Relation.ReflTransGen.tail (hctr r hr) ⟨he, hadj⟩
          by_cases he : edgeAt img p = true
          · rw [if_pos he] at hmem
            refine ih _ _ _ ?_ ?_ q hmem
            · intro r hr
              rcases List.mem_append.mp hr with hr | hr
              · rw [List.mem_reverse] at hr
                rcases (mem_pushNeighbors img _ p r).mp hr with ⟨hadj, _, _⟩
                exact Or.inr ⟨p, List.mem_cons_self p contour, hadj⟩
              · rcases hstk r (List.mem_cons_of_mem p hr) with h | ⟨t, ht, hadj⟩
                · exact Or.inl h
                · exact Or.inr ⟨t, List.mem_cons_of_mem p ht, hadj⟩
            · intro r hr
              rcases List.mem_cons.mp hr with rfl | hr
              · exact hreach_p he
              · exact hctr r hr
          · rw [if_neg he] at hmem
            exact ih _ _ _
              (fun r hr => hstk r (List.mem_cons_of_mem p hr)) hctr q hmem

theorem traceGo_complete (img : Img) :
    ∀ (fuel : ℕ) (v : Pt → Bool) (stack contour : List Pt),
      (∀ p ∈ contour, ∀ q, adjp p q → inB img q → (v q = true ∨ q ∈ stack)) →
      (traceGo img fuel v stack contour).2.1 = [] →
      ∀ p ∈ (traceGo img fuel v stack contour).1, ∀ q, adjp p q → inB img q →
        (traceGo img fuel v stack contour).2.2 q = true := by
  intro fuel
  induction fuel with
  | zero =>
    intro v stack contour hnb hst p hp q hadj hin
    rw [traceGo] at hst hp ⊢
    have hst' : stack = [] := by simpa using hst
    rcases hnb p (by simpa using hp) q hadj hin with h | h
    · exact h
    · rw [hst'] at h; cases h
  | succ n ih =>
    intro v stack contour hnb hst p hp q hadj hin
    cases stack with
    | nil =>
      rw [traceGo] at hp ⊢
      rcases hnb p (by simpa using hp) q hadj hin with h | h
      · exact h
      · cases h
    | cons r0 rest =>
      rw [traceGo] at hst hp ⊢
      by_cases hc : 1000 ≤ contour.length
      · rw [if_pos hc] at hst
        cases hst
      · rw [if_neg hc] at hst hp ⊢
        by_cases hv : v r0 = true
        · rw [if_pos hv] at hst hp ⊢
          refine ih v rest contour ?_ hst p hp q hadj hin
          intro a ha b hb hbin
          rcases hnb a ha b hb hbin with h | h
          · exact Or.inl h
          · rcases List.mem_cons.mp h with rfl | h
            · exact Or.inl hv
            · exact Or.inr h
        · rw [if_neg hv] at hst hp ⊢
          by_cases he : edgeAt img r0 = true
          · rw [if_pos he] at hst hp ⊢
            refine ih _ _ _ ?_ hst p hp q hadj hin
            intro a ha b hb hbin
            rcases List.mem_cons.mp ha with rfl | ha
            · by_cases hbv : visit v a b = true
              · exact Or.inl hbv
              · refine Or.inr (List.mem_append.mpr (Or.inl ?_))
                rw [List.mem_reverse]
                exact (mem_pushNeighbors img _ a b).mpr
                  ⟨hb, hbin, Bool.not_eq_true _ ▸ (by simpa using hbv)⟩
            · rcases hnb a ha b hb hbin with h | h
              · exact Or.inl (visit_mono v r0 b h)
              · rcases List.mem_cons.mp h with rfl | h
                · exact Or.inl (visit_self v b)
                · exact Or.inr (List.mem_append.mpr (Or.inr h))
          · rw [if_neg he] at hst hp ⊢
            refine ih _ _ _ ?_ hst p hp q hadj hin
            intro a ha b hb hbin
            rcases hnb a ha b hb hbin with h | h
            · exact Or.inl (visit_mono v r0 b h)
            · rcases List.mem_cons.mp h with rfl | h
              · exact Or.inl (visit_self v b)
              · exact Or.inr h

/-! ### `traceContour`-level consequences -/

theorem traceContour_len_le (img : Img) (v : Pt → Bool) (stack : List Pt) :
    (traceContour img v stack).1.length ≤ 1000 := by
  rw [traceContour]
  exact traceGo_len_le img _ v stack [] (by simp)

theorem traceContour_nodup (img : Img) (v : Pt → Bool) (stack : List Pt) :
    (traceContour img v stack).1.Nodup := by
  rw [traceContour]
  exact traceGo_nodup img _ v stack [] (by simp) List.nodup_nil

theorem traceContour_src (img : Img) (v : Pt → Bool) (stack : List Pt) :
    ∀ q ∈ (traceContour img v stack).1, edgeAt img q = true := by
  rw [traceContour]
  intro q hq
  rcases traceGo_contour_src img _ v stack [] q hq with h | h
  · cases h
  · exact h

theorem traceContour_edge_char (img : Img) (v : Pt → Bool) (stack : List Pt) :
    ∀ q, edgeAt img q = true →
      ((traceContour img v stack).2.2 q = true ↔
        v q = true ∨ q ∈ (traceContour img v stack).1) := by
  rw [traceContour]
  exact traceGo_edge_char img _ v stack [] (by simp)

theorem traceContour_mono (img : Img) (v : Pt → Bool) (stack : List Pt) (q : Pt) :
    v q = true → (traceContour img v stack).2.2 q = true := by
  rw [traceContour]
  exact traceGo_visited_mono img _ v stack [] q

theorem traceContour_cap (img : Img) (v : Pt → Bool) (stack : List Pt) :
    (traceContour img v stack).2.1 ≠ [] → (traceContour img v stack).1.length = 1000 := by
  intro hne
  have h2 : unseenCnt img v ≤ img.width * img.height := by
    rw [Nat.mul_comm]; exact unseenCnt_le img v
  have hfuel : 10 * unseenCnt img v + stack.length < traceFuel img stack := by
    simp only [traceFuel]; omega
  rw [traceContour] at hne ⊢
  rcases traceGo_exit img (traceFuel img stack) v stack [] hfuel (by simp) with h | h
  · exact absurd h hne
  · exact h

theorem traceContour_start_mem (img : Img) (v : Pt → Bool) (s : Pt)
    (hv : v s = false) (he : edgeAt img s = true) :
    s ∈ (traceContour img v [s]).1 := by
  rw [traceContour]
  have hn : traceFuel img [s] = (10 * (img.width * img.height) + 1) + 1 := by
    simp [traceFuel]
  rw [hn, traceGo]
  rw [if_neg (by simp), if_neg (by simp [hv]), if_pos he]
  exact traceGo_contour_extend img _ _ _ _ s (List.mem_cons_self s [])

theorem traceContour_complete (img : Img) (v : Pt → Bool) (s : Pt) :
    (traceContour img v [s]).2.1 = [] →
    ∀ p ∈ (traceContour img v [s]).1, ∀ q, adjp p q → inB img q →
      (traceContour img v [s]).2.2 q = true := by
  rw [traceContour]
  exact traceGo_complete img _ v [s] [] (by simp)

theorem traceContour_sound (img : Img) (v : Pt → Bool) (s : Pt) :
    ∀ q ∈ (traceContour img v [s]).1, Reach img s q := by
  rw [traceContour]
  refine traceGo_sound img s _ v [s] [] ?_ (by simp)
  intro p hp
  simp at hp
  exact Or.inl hp

/-- The master theorem on tracing one connected component: if `A` is the
set of edge pixels reachable from `s`, is fully unvisited, and has at most
999 pixels, then the trace started at `s` terminates with an empty stack,
its contour is exactly `A` without duplicates, and the visited set gains
exactly the edge pixels of `A`. -/
theorem traceContour_component (img : Img) (v : Pt → Bool) (s : Pt) (A : Finset Pt)
    (hsA : s ∈ A)
    (hedge : ∀ p ∈ A, edgeAt img p = true)
    (hA : ∀ p, Reach img s p ↔ p ∈ A)
    (hcard : A.card ≤ 999)
    (hunv : ∀ p ∈ A, v p = false) :
    (traceContour img v [s]).2.1 = [] ∧
    (∀ p, p ∈ (traceContour img v [s]).1 ↔ p ∈ A) ∧
    (traceContour img v [s]).1.Nodup ∧
    (traceContour img v [s]).1.length = A.card ∧
    (∀ q, edgeAt img q = true →
      ((traceContour img v [s]).2.2 q = true ↔ v q = true ∨ q ∈ A)) := by
  have hnodup := traceContour_nodup img v [s]
  have hsound : ∀ q ∈ (traceContour img v [s]).1, q ∈ A := fun q hq =>
    (hA q).mp (traceContour_sound img v s q hq)
  have hsub : (traceContour img v [s]).1.toFinset ⊆ A := fun q hq =>
    hsound q (List.mem_toFinset.mp hq)
  have hlen_le : (traceContour img v [s]).1.length ≤ A.card := by
    rw [← List.toFinset_card_of_nodup hnodup]
    exact Finset.card_le_card hsub
  have hst : (traceContour img v [s]).2.1 = [] := by
    by_contra hne
    have := traceContour_cap img v [s] hne
    omega
  have hsmem : s ∈ (traceContour img v [s]).1 :=
    traceContour_start_mem img v s (hunv s hsA) (hedge s hsA)
  have hcomplete : ∀ q, Reach img s q → q ∈ (traceContour img v [s]).1 := by
    intro q hq
    induction hq with
    | refl => exact hsmem
    | tail hreach hstep ih =>
      rename_i b c
      have hvq : (traceContour img v [s]).2.2 c = true :=
        traceContour_complete img v s hst b ih c hstep.2 (edgeAt_inB img c hstep.1)
      rcases (traceContour_edge_char img v [s] c hstep.1).mp hvq with h | h
      · have hcA : c ∈ A := (hA c).mp (Relation.ReflTransGen.tail hreach hstep)
        rw [hunv c hcA] at h
        cases h
      · exact h
  have hmemiff : ∀ p, p ∈ (traceContour img v [s]).1 ↔ p ∈ A := fun p =>
    ⟨hsound p, fun hp => hcomplete p ((hA p).mpr hp)⟩
  have hfin : (traceContour img v [s]).1.toFinset = A :=
    Finset.ext fun p => by rw [List.mem_toFinset]; exact hmemiff p
  have hlen : (traceContour img v [s]).1.length = A.card := by
    rw [← List.toFinset_card_of_nodup hnodup, hfin]
  refine ⟨hst, hmemiff, hnodup, hlen, ?_⟩
  intro q hq
  rw [traceContour_edge_char img v [s] q hq]
  constructor
  · rintro (h | h)
    · exact Or.inl h
    · exact Or.inr (hsound q h)
  · rintro (h | h)
    · exact Or.inl h
    · exact Or.inr (hcomplete q ((hA q).mpr h))

/-! ### The `findContours` raster scan -/

theorem scanFold_all (img : Img) (P : List Pt → Prop)
    (hP : ∀ (v : Pt → Bool) (p : Pt), 10 < (traceContour img v [p]).1.length →
      P (traceContour img v [p]).1) :
    ∀ (l : List Pt) (st : (Pt → Bool) × List (List Pt)),
      (∀ c ∈ st.2, P c) → ∀ c ∈ (l.foldl (scanStep img) st).2, P c := by
  intro l
  induction l with
  | nil => intro st h c hc; exact h c hc
  | cons p rest ih =>
    intro st h c hc
    rw [List.foldl_cons] at hc
    refine ih _ ?_ c hc
    intro d hd
    rw [scanStep] at hd
    by_cases h1 : st.1 p = true
    · rw [if_pos h1] at hd; exact h d hd
    · rw [if_neg h1] at hd
      by_cases h2 : edgeAt img p = true
      · rw [if_pos h2] at hd
        by_cases h3 : 10 < (traceContour img st.1 [p]).1.length
        · rw [if_pos h3] at hd
          simp only [] at hd
          rcases List.mem_append.mp hd with hd | hd
          · exact h d hd
          · rw [List.mem_singleton] at hd
            subst hd
            exact hP st.1 p h3
        · rw [if_neg h3] at hd
          exact h d hd
      · rw [if_neg h2] at hd; exact h d hd

theorem findContours_all (img : Img) (P : List Pt → Prop)
    (hP : ∀ (v : Pt → Bool) (p : Pt), 10 < (traceContour img v [p]).1.length →
      P (traceContour img v [p]).1) :
    ∀ c ∈ findContours img, P c := by
  rw [findContours]
  exact scanFold_all img P hP _ _ (by simp)

/-! ### C1 — the classifier decision table -/

/-- C1: the Classifier follows the decision table on absolute area `A` and
aspect `= boundingWidth / (boundingHeight + 1e-9)`: for `A > 5000` a wall
exactly when boundary-touching (`minX ≤ 5 ∨ minY ≤ 5 ∨ maxX ≥ w-5 ∨
maxY ≥ h-5`) or `aspect > 3` or `aspect < 0.33`, else a room; for
`1000 < A ≤ 5000` a door exactly when `0.4 < aspect < 2.5`, else a wall;
for `200 < A ≤ 1000` a window exactly when `aspect > 2` or `aspect < 0.5`,
else dropped; for `A ≤ 200` dropped. The spec's literal cases follow:
area 6000 with box 100×10 → wall, area 2000 with box 40×30 → door,
area 500 with box 5×20 → window, area 500 with box 15×15 → dropped. -/
theorem c1_classifier_table (area : ℚ) (b : Bounds) (w h : ℚ) :
    (area > 5000 →
      ((classifyDecision area b w h = some CType.wall ↔
        ((b.minX ≤ 5 ∨ b.minY ≤ 5 ∨ b.maxX ≥ w - 5 ∨ b.maxY ≥ h - 5)
          ∨ b.width / (b.height + 1e-9) > 3 ∨ b.width / (b.height + 1e-9) < 0.33)) ∧
       (classifyDecision area b w h = some CType.room ↔
        ¬((b.minX ≤ 5 ∨ b.minY ≤ 5 ∨ b.maxX ≥ w - 5 ∨ b.maxY ≥ h - 5)
          ∨ b.width / (b.height + 1e-9) > 3 ∨ b.width / (b.height + 1e-9) < 0.33)))) ∧
    (area > 1000 → area ≤ 5000 →
      ((classifyDecision area b w h = some CType.door ↔
        (b.width / (b.height + 1e-9) > 0.4 ∧ b.width / (b.height + 1e-9) < 2.5)) ∧
       (classifyDecision area b w h = some CType.wall ↔
        ¬(b.width / (b.height + 1e-9) > 0.4 ∧ b.width / (b.height + 1e-9) < 2.5)))) ∧
    (area > 200 → area ≤ 1000 →
      ((classifyDecision area b w h = some CType.window ↔
        (b.width / (b.height + 1e-9) > 2 ∨ b.width / (b.height + 1e-9) < 0.5)) ∧
       (classifyDecision area b w h = none ↔
        ¬(b.width / (b.height + 1e-9) > 2 ∨ b.width / (b.height + 1e-9) < 0.5)))) ∧
    (area ≤ 200 → classifyDecision area b w h = none) ∧
    (∀ b' : Bounds, b'.width = 100 → b'.height = 10 →
      classifyDecision 6000 b' w h = some CType.wall) ∧
    (∀ b' : Bounds, b'.width = 40 → b'.height = 30 →
      classifyDecision 2000 b' w h = some CType.door) ∧
    (∀ b' : Bounds, b'.width = 5 → b'.height = 20 →
      classifyDecision 500 b' w h = some CType.window) ∧
    (∀ b' : Bounds, b'.width = 15 → b'.height = 15 →
      classifyDecision 500 b' w h = none) := by
  refine ⟨?_, ?_, ?_, ?_, ?_, ?_, ?_, ?_⟩
  · intro h5
    simp only [classifyDecision, if_pos h5]
    by_cases hC : (b.minX ≤ 5 ∨ b.minY ≤ 5 ∨ b.maxX ≥ w - 5 ∨ b.maxY ≥ h - 5)
        ∨ b.width / (b.height + 1e-9) > 3 ∨ b.width / (b.height + 1e-9) < 0.33
    · rw [if_pos hC]
      exact ⟨iff_of_true rfl hC, iff_of_false (by simp) (not_not_intro hC)⟩
    · rw [if_neg hC]
      exact ⟨iff_of_false (by simp) hC, iff_of_true rfl hC⟩
  · intro h1 h2
    have hn5 : ¬(area > 5000) := by linarith
    simp only [classifyDecision, if_neg hn5, if_pos (And.intro h1 h2)]
    by_cases hC : b.width / (b.height + 1e-9) > 0.4 ∧ b.width / (b.height + 1e-9) < 2.5
    · rw [if_pos hC]
      exact ⟨iff_of_true rfl hC, iff_of_false (by simp) (not_not_intro hC)⟩
    · rw [if_neg hC]
      exact ⟨iff_of_false (by simp) hC, iff_of_true rfl hC⟩
  · intro h1 h2
    have hn5 : ¬(area > 5000) := by linarith
    have hn1 : ¬(area > 1000 ∧ area ≤ 5000) := by
      rintro ⟨ha, _⟩; linarith
    simp only [classifyDecision, if_neg hn5, if_neg hn1, if_pos (And.intro h1 h2)]
    by_cases hC : b.width / (b.height + 1e-9) > 2 ∨ b.width / (b.height + 1e-9) < 0.5
    · rw [if_pos hC]
      exact ⟨iff_of_true rfl hC, iff_of_false (by simp) (not_not_intro hC)⟩
    · rw [if_neg hC]
      exact ⟨iff_of_false (by simp) hC, iff_of_true rfl hC⟩
  · intro h2
    have hn5 : ¬(area > 5000) := by linarith
    have hn1 : ¬(area > 1000 ∧ area ≤ 5000) := by rintro ⟨ha, _⟩; linarith
    have hn2 : ¬(area > 200 ∧ area ≤ 1000) := by rintro ⟨ha, _⟩; linarith
    simp only [classifyDecision, if_neg hn5, if_neg hn1, if_neg hn2]
  · intro b' hw hh
    simp only [classifyDecision, hw, hh]
    rw [if_pos (by norm_num), if_pos (Or.inr (Or.inl (by norm_num)))]
  · intro b' hw hh
    simp only [classifyDecision, hw, hh]
    rw [if_neg (by norm_num), if_pos (by norm_num),
      if_pos (And.intro (by norm_num) (by norm_num))]
  · intro b' hw hh
    simp only [classifyDecision, hw, hh]
    rw [if_neg (by norm_num), if_neg (by norm_num), if_pos (by norm_num),
      if_pos (Or.inr (by norm_num))]
  · intro b' hw hh
    simp only [classifyDecision, hw, hh]
    rw [if_neg (by norm_num), if_neg (by norm_num), if_pos (by norm_num),
      if_neg (by norm_num)]

/-- C1 witness: the decision table at the spec's first literal case. -/
theorem c1_witness :
    classifyDecision 6000 ⟨0, 100, 0, 10, 100, 10⟩ 800 800 = some CType.wall :=
  (c1_classifier_table 6000 ⟨0, 100, 0, 10, 100, 10⟩ 800 800).2.2.2.2.1
    ⟨0, 100, 0, 10, 100, 10⟩ rfl rfl

/-! ### C3 — Rasterizer scaling -/

/-- C3 (amended): for positive original dimensions, a successful
`analyzeFloorPlan` returns `scale = min(800/origW, 800/origH, 1) ∈ (0,1]`
and working dimensions `⌊origW*scale⌋` and `⌊origH*scale⌋` (truncated, as
assignment to `canvas.width`/`canvas.height` truncates), each at most
800. -/
theorem c3_scale_dims (resample : Img → ℕ → ℕ → ℕ → ℕ) (img : Img)
    (r : ProcessingResult)
    (hw : 0 < img.width) (hh : 0 < img.height)
    (hr : analyzeFloorPlan resample img = .ok r) :
    r.scale = min (min (800 / (img.width : ℚ)) (800 / (img.height : ℚ))) 1 ∧
    0 < r.scale ∧ r.scale ≤ 1 ∧
    r.imageWidth = (⌊(img.width : ℚ) * r.scale⌋).toNat ∧
    r.imageHeight = (⌊(img.height : ℚ) * r.scale⌋).toNat ∧
    r.imageWidth ≤ 800 ∧ r.imageHeight ≤ 800 := by
  simp only [analyzeFloorPlan] at hr
  by_cases hz :
      (⌊(img.width : ℚ) * min (min (800 / (img.width : ℚ)) (800 / (img.height : ℚ))) 1⌋).toNat = 0
      ∨ (⌊(img.height : ℚ) * min (min (800 / (img.width : ℚ)) (800 / (img.height : ℚ))) 1⌋).toNat = 0
  · rw [if_pos hz] at hr; cases hr
  · rw [if_neg hz] at hr
    obtain rfl := (Except.ok.inj hr).symm
    have hw' : (0 : ℚ) < (img.width : ℚ) := by exact_mod_cast hw
    have hh' : (0 : ℚ) < (img.height : ℚ) := by exact_mod_cast hh
    have hpos : 0 < min (min (800 / (img.width : ℚ)) (800 / (img.height : ℚ))) 1 := by
      rw [lt_min_iff, lt_min_iff]
      exact ⟨⟨div_pos (by norm_num) hw', div_pos (by norm_num) hh'⟩, by norm_num⟩
    have hle1 : min (min (800 / (img.width : ℚ)) (800 / (img.height : ℚ))) 1 ≤ 1 :=
      min_le_right _ _
    have hlew : min (min (800 / (img.width : ℚ)) (800 / (img.height : ℚ))) 1
        ≤ 800 / (img.width : ℚ) :=
      le_trans (min_le_left _ _) (min_le_left _ _)
    have hleh : min (min (800 / (img.width : ℚ)) (800 / (img.height : ℚ))) 1
        ≤ 800 / (img.height : ℚ) :=
      le_trans (min_le_left _ _) (min_le_right _ _)
    refine ⟨rfl, hpos, hle1, rfl, rfl, ?_, ?_⟩
    · have hb : (img.width : ℚ) * min (min (800 / (img.width : ℚ)) (800 / (img.height : ℚ))) 1
          ≤ 800 := by
        calc (img.width : ℚ) * min (min (800 / (img.width : ℚ)) (800 / (img.height : ℚ))) 1
            ≤ (img.width : ℚ) * (800 / (img.width : ℚ)) :=
              mul_le_mul_of_nonneg_left hlew (le_of_lt hw')
          _ = 800 := by field_simp
      rw [Int.toNat_le]
      calc (⌊(img.width : ℚ) * min (min (800 / (img.width : ℚ)) (800 / (img.height : ℚ))) 1⌋)
          ≤ ⌊(800 : ℚ)⌋ := Int.floor_le_floor hb
        _ = 800 := by norm_num
    · have hb : (img.height : ℚ) * min (min (800 / (img.width : ℚ)) (800 / (img.height : ℚ))) 1
          ≤ 800 := by
        calc (img.height : ℚ) * min (min (800 / (img.width : ℚ)) (800 / (img.height : ℚ))) 1
            ≤ (img.height : ℚ) * (800 / (img.height : ℚ)) :=
              mul_le_mul_of_nonneg_left hleh (le_of_lt hh')
          _ = 800 := by field_simp
      rw [Int.toNat_le]
      calc (⌊(img.height : ℚ) * min (min (800 / (img.width : ℚ)) (800 / (img.height : ℚ))) 1⌋)
          ≤ ⌊(800 : ℚ)⌋ := Int.floor_le_floor hb
        _ = 800 := by norm_num

/-- C3 counterexample to the claim as stated: a 900 × 300 image gets
`scale = 8/9` and working height `⌊300 * 8/9⌋ = 266`, while
`round(300 * 8/9) = 267` — the dimensions are truncated, not rounded. -/
theorem c3_round_counterexample :
    (analyzeFloorPlan zeroResample img900).toOption.map
      (fun r => (r.imageHeight, round ((300 : ℚ) * r.scale))) = some (266, 267) := by
  with_unfolding_all decide

/-- C3 witness: the amended theorem applied to the 900 × 300 image. -/
theorem c3_witness :
    (analyzeFloorPlan zeroResample img900).toOption.map (fun r => r.imageWidth)
      = some 800 := by
  have hnone : errOf (analyzeFloorPlan zeroResample img900) = none := by
    with_unfolding_all decide
  rcases hok : analyzeFloorPlan zeroResample img900 with e | r
  · rw [hok] at hnone; cases hnone
  · have h := c3_scale_dims zeroResample img900 r (by decide) (by decide) hok
    show some r.imageWidth = some 800
    rw [h.2.2.2.1, h.1]
    have hval : ((⌊(img900.width : ℚ)
        * min (min (800 / (img900.width : ℚ)) (800 / (img900.height : ℚ))) 1⌋).toNat) = 800 := by
      with_unfolding_all decide
    rw [hval]

/-! ### C7 — failure modes of `processImage` -/

/-- C7 (amended): `processImage` fails with the decode error exactly when
the input bytes are undecodable; it fails with `IndexSizeError` exactly
when the decoded image's downscaled width or height truncates to zero;
there is no other error, and a failing call returns an `Except.error`,
never any (partial) `ProcessingResult`. -/
theorem c7_failure_modes (decode : List ℕ → Option Img)
    (resample : Img → ℕ → ℕ → ℕ → ℕ) (bytes : List ℕ) :
    (processImage decode resample bytes = .error .decodeFail ↔ decode bytes = none) ∧
    (∀ img, decode bytes = some img →
      (processImage decode resample bytes = .error .indexSize ↔
        ((⌊(img.width : ℚ) * min (min (800 / (img.width : ℚ)) (800 / (img.height : ℚ))) 1⌋).toNat = 0
          ∨ (⌊(img.height : ℚ) * min (min (800 / (img.width : ℚ)) (800 / (img.height : ℚ))) 1⌋).toNat = 0))) ∧
    (∀ e, processImage decode resample bytes = .error e →
      e = .decodeFail ∨ e = .indexSize) := by
  rcases hd : decode bytes with _ | img
  · simp only [processImage, hd]
    refine ⟨by simp, ?_, ?_⟩
    · intro img him; cases him
    · intro e he
      obtain rfl := (Except.error.inj he).symm
      exact Or.inl rfl
  · simp only [processImage, hd, analyzeFloorPlan]
    by_cases hz :
        (⌊(img.width : ℚ) * min (min (800 / (img.width : ℚ)) (800 / (img.height : ℚ))) 1⌋).toNat = 0
        ∨ (⌊(img.height : ℚ) * min (min (800 / (img.width : ℚ)) (800 / (img.height : ℚ))) 1⌋).toNat = 0
    · rw [if_pos hz]
      refine ⟨by simp, ?_, ?_⟩
      · intro img' him
        obtain rfl := Option.some.inj him
        exact iff_of_true rfl hz
      · intro e he
        obtain rfl := (Except.error.inj he).symm
        exact Or.inr rfl
    · rw [if_neg hz]
      refine ⟨by simp, ?_, ?_⟩
      · intro img' him
        obtain rfl := Option.some.inj him
        exact iff_of_false (by simp) hz
      · intro e he
        cases he

/-- C7 counterexample to the claim as stated: a decodable 1 × 801 image
(not a decode failure) still makes `processImage` fail — with an
`IndexSizeError` from `getImageData`, since the downscaled width truncates
to `⌊800/801⌋ = 0`. -/
theorem c7_decodable_failure_counterexample :
    decode801 [] ≠ none ∧
    errOf (processImage decode801 zeroResample []) = some PErr.indexSize := by
  constructor
  · simp [decode801]
  · with_unfolding_all decide

/-- C7 witness: the failure-mode theorem applied to the 1 × 801 decoder. -/
theorem c7_witness :
    processImage decode801 zeroResample [] = .error .indexSize ↔
      ((⌊((1 : ℕ) : ℚ) * min (min (800 / ((1 : ℕ) : ℚ)) (800 / ((801 : ℕ) : ℚ))) 1⌋).toNat = 0
        ∨ (⌊((801 : ℕ) : ℚ) * min (min (800 / ((1 : ℕ) : ℚ)) (800 / ((801 : ℕ) : ℚ))) 1⌋).toNat = 0) :=
  (c7_failure_modes decode801 zeroResample []).2.1 ⟨1, 801, fun _ => 0⟩ rfl

/-! ### C8 — determinism -/

/-- C8: the pipeline is a pure function of the decoder, the resampler and
the input bytes: byte-identical inputs produce identical results. -/
theorem c8_deterministic (decode : List ℕ → Option Img)
    (resample : Img → ℕ → ℕ → ℕ → ℕ) (b1 b2 : List ℕ) (h : b1 = b2) :
    processImage decode resample b1 = processImage decode resample b2 := by
  rw [h]

/-- C8 witness: determinism at a concrete input. -/
theorem c8_witness :
    processImage decode801 zeroResample [] = processImage decode801 zeroResample [] :=
  c8_deterministic decode801 zeroResample [] [] rfl

/-! ### C5 — emitted contour sizes -/

/-- C5: every contour emitted by `findContours` has more than 10 and at
most 1000 points, and a trace whose loop exited with a nonempty stack
(stopped by the cap rather than by exhausting the stack) collected exactly
1000 points. Regions of 10 or fewer points are never emitted, being
filtered by the `> 10` check. -/
theorem c5_contour_sizes (img : Img) :
    (∀ c ∈ findContours img, 10 < c.length ∧ c.length ≤ 1000) ∧
    (∀ (v : Pt → Bool) (stack : List Pt),
      (traceContour img v stack).2.1 ≠ [] →
      (traceContour img v stack).1.length = 1000) := by
  constructor
  · exact findContours_all img _ (fun v p h3 => ⟨h3, traceContour_len_le img v [p]⟩)
  · exact fun v stack => traceContour_cap img v stack

set_option maxRecDepth 4000 in
/-- C5 witness: the 12-pixel line mask emits one 12-point contour. -/
theorem c5_witness :
    10 < ([((0:ℤ),(0:ℤ)),(1,0),(2,0),(3,0),(4,0),(5,0),(6,0),(7,0),(8,0),(9,0),(10,0),(11,0)]
      : List Pt).length ∧
    ([((0:ℤ),(0:ℤ)),(1,0),(2,0),(3,0),(4,0),(5,0),(6,0),(7,0),(8,0),(9,0),(10,0),(11,0)]
      : List Pt).length ≤ 1000 := by
  have heq : findContours line12 =
      [[((0:ℤ),(0:ℤ)),(1,0),(2,0),(3,0),(4,0),(5,0),(6,0),(7,0),(8,0),(9,0),(10,0),(11,0)]] := by
    decide
  refine (c5_contour_sizes line12).1 _ ?_
  rw [heq]
  exact List.mem_singleton.mpr rfl

/-! ### C6 — the area field is the shoelace area -/

theorem foldl_add_int (f : ℕ → ℤ) :
    ∀ (l : List ℕ) (a : ℤ), l.foldl (fun acc i => acc + f i) a = a + (l.map f).sum := by
  intro l
  induction l with
  | nil => intro a; simp
  | cons x xs ih =>
    intro a
    rw [List.foldl_cons, ih, List.map_cons, List.sum_cons]
    ring

theorem map_sum_range_eq (f : ℕ → ℤ) (n : ℕ) :
    ((List.range n).map f).sum = ∑ i ∈ Finset.range n, f i := by
  induction n with
  | zero => simp
  | succ m ih =>
    rw [List.range_succ, List.map_append, List.sum_append, Finset.sum_range_succ, ih]
    simp

theorem shoelaceSum_eq_sum (points : List Pt) :
    shoelaceSum points = ∑ i ∈ Finset.range points.length,
      ((points.getD i (0, 0)).1 * (points.getD ((i + 1) % points.length) (0, 0)).2
        - (points.getD ((i + 1) % points.length) (0, 0)).1 * (points.getD i (0, 0)).2) := by
  rw [show shoelaceSum points = (List.range points.length).foldl
      (fun acc i => acc +
        ((points.getD i (0, 0)).1 * (points.getD ((i + 1) % points.length) (0, 0)).2
          - (points.getD ((i + 1) % points.length) (0, 0)).1 * (points.getD i (0, 0)).2)) 0
    from rfl]
  rw [foldl_add_int, map_sum_range_eq]
  ring

/-- `calculateArea` agrees with the absolute spec shoelace area on every
point list: its `< 3` early return yields 0, and the shoelace sum of 0, 1
or 2 points is 0 as well. -/
theorem calculateArea_eq_abs (points : List Pt) :
    calculateArea points = |specSignedArea points| := by
  rw [calculateArea]
  by_cases hlen : points.length < 3
  · rw [if_pos hlen]
    have h0 : specSignedArea points = 0 := by
      rcases points with _ | ⟨a, _ | ⟨b, _ | ⟨c, t⟩⟩⟩
      · simp [specSignedArea]
      · simp [specSignedArea]
      · rw [specSignedArea]
        norm_num [Finset.sum_range_succ]
        ring
      · exfalso; simp at hlen; omega
    rw [h0]
    simp
  · rw [if_neg hlen, specSignedArea, ← shoelaceSum_eq_sum, abs_div]
    rw [Int.cast_natAbs]
    norm_num

theorem classifyFold_area (w h : ℚ) :
    ∀ (l : List (List Pt)) (s : Classified),
      (∀ c ∈ allContours s, c.area = calculateArea c.points) →
      ∀ c ∈ allContours (l.foldl (classifyStep w h) s), c.area = calculateArea c.points := by
  intro l
  induction l with
  | nil => intro s hs c hc; exact hs c hc
  | cons pts rest ih =>
    intro s hs c hc
    rw [List.foldl_cons] at hc
    refine ih _ ?_ c hc
    intro d hd
    rw [classifyStep] at hd
    rcases hdec : classifyDecision (calculateArea pts) (getBounds pts) w h with _ | ct
    · rw [hdec] at hd; exact hs d hd
    · rw [hdec] at hd
      cases ct with
      | wall =>
        have hsplit : d ∈ allContours s ∨ d = ⟨pts, calculateArea pts, CType.wall⟩ := by
          simp only [allContours, List.mem_append, List.mem_singleton] at hd ⊢
          tauto
        rcases hsplit with hd' | rfl
        · exact hs d hd'
        · rfl
      | door =>
        have hsplit : d ∈ allContours s ∨ d = ⟨pts, calculateArea pts, CType.door⟩ := by
          simp only [allContours, List.mem_append, List.mem_singleton] at hd ⊢
          tauto
        rcases hsplit with hd' | rfl
        · exact hs d hd'
        · rfl
      | window =>
        have hsplit : d ∈ allContours s ∨ d = ⟨pts, calculateArea pts, CType.window⟩ := by
          simp only [allContours, List.mem_append, List.mem_singleton] at hd ⊢
          tauto
        rcases hsplit with hd' | rfl
        · exact hs d hd'
        · rfl
      | room =>
        have hsplit : d ∈ allContours s ∨ d = ⟨pts, calculateArea pts, CType.room⟩ := by
          simp only [allContours, List.mem_append, List.mem_singleton] at hd ⊢
          tauto
        rcases hsplit with hd' | rfl
        · exact hs d hd'
        · rfl

/-- C6: every contour in a successful `ProcessingResult` — and more
generally every contour classified by `classifyContours` — carries
`area = |shoelace(points)|`, the absolute signed shoelace area of its
point list as it stood at classification time. -/
theorem c6_area_shoelace (resample : Img → ℕ → ℕ → ℕ → ℕ) (img : Img) :
    (∀ r : ProcessingResult, analyzeFloorPlan resample img = .ok r →
      ∀ c ∈ allContours r.toClassified, c.area = |specSignedArea c.points|) ∧
    (∀ (contours : List (List Pt)) (w h : ℚ),
      ∀ c ∈ allContours (classifyContours contours w h),
        c.area = |specSignedArea c.points|) := by
  have hcl : ∀ (contours : List (List Pt)) (w h : ℚ),
      ∀ c ∈ allContours (classifyContours contours w h),
        c.area = calculateArea c.points := by
    intro contours w h
    exact classifyFold_area w h contours ⟨[], [], [], []⟩ (by simp [allContours])
  constructor
  · intro r hr c hc
    simp only [analyzeFloorPlan] at hr
    by_cases hz :
        (⌊(img.width : ℚ) * min (min (800 / (img.width : ℚ)) (800 / (img.height : ℚ))) 1⌋).toNat = 0
        ∨ (⌊(img.height : ℚ) * min (min (800 / (img.width : ℚ)) (800 / (img.height : ℚ))) 1⌋).toNat = 0
    · rw [if_pos hz] at hr; cases hr
    · rw [if_neg hz] at hr
      obtain rfl := (Except.ok.inj hr).symm
      rw [hcl _ _ _ c hc, calculateArea_eq_abs]
  · intro contours w h c hc
    rw [hcl _ _ _ c hc, calculateArea_eq_abs]

set_option maxRecDepth 4000 in
/-- C6 witness: a 60 × 20 rectangle contour is classified as a wall with
area 1200, the absolute shoelace area of its corners. -/
theorem c6_witness :
    (⟨[((0:ℤ),(0:ℤ)), (60,0), (60,20), (0,20)], 1200, CType.wall⟩ : Contour).area
      = |specSignedArea [((0:ℤ),(0:ℤ)), (60,0), (60,20), (0,20)]| := by
  refine (c6_area_shoelace zeroResample img900).2
    [[((0:ℤ),(0:ℤ)), (60,0), (60,20), (0,20)]] 800 800 _ ?_
  have heq : classifyContours [[((0:ℤ),(0:ℤ)), (60,0), (60,20), (0,20)]] 800 800 =
      ⟨[⟨[((0:ℤ),(0:ℤ)), (60,0), (60,20), (0,20)], 1200, .wall⟩], [], [], []⟩ := by
    with_unfolding_all decide
  rw [heq]
  simp [allContours]

/-! ### C4 / C10 — the edge mask -/

theorem detectEdges_data_eq (img : Img) (x y : ℕ) (hx : x < img.width) :
    (detectEdges img).data ((y * img.width + x) * 4) =
      if 1 ≤ x ∧ x + 1 < img.width ∧ 1 ≤ y ∧ y + 1 < img.height then
        edgeValue img.data img.width x y
      else 0 := by
  have hw : 0 < img.width := by omega
  have hdiv : ((y * img.width + x) * 4) / 4 = y * img.width + x := by omega
  have hmod : ((y * img.width + x) * 4) % 4 = 0 := by omega
  have hxx : (y * img.width + x) % img.width = x := by
    rw [Nat.mul_comm y, Nat.mul_add_mod]
    exact Nat.mod_eq_of_lt hx
  have hyy : (y * img.width + x) / img.width = y := by
    rw [Nat.mul_comm y, Nat.mul_add_div hw, Nat.div_eq_of_lt hx, Nat.add_zero]
  simp only [detectEdges, hdiv, hmod, hxx, hyy]
  norm_num

/-- An edge pixel of the Sobel mask lies strictly inside the 1-pixel
border of the working image. -/
theorem edgeAt_detectEdges_interior (img : Img) (p : Pt)
    (h : edgeAt (detectEdges img) p = true) :
    1 ≤ p.1 ∧ p.1 + 2 ≤ (img.width : ℤ) ∧ 1 ≤ p.2 ∧ p.2 + 2 ≤ (img.height : ℤ) := by
  simp only [edgeAt, Bool.and_eq_true, decide_eq_true_eq] at h
  obtain ⟨⟨⟨⟨h1, h2⟩, h3⟩, h4⟩, h5⟩ := h
  have hw2 : (detectEdges img).width = img.width := rfl
  have hh2 : (detectEdges img).height = img.height := rfl
  rw [hw2] at h2 h5
  rw [hh2] at h4
  have hxw : p.1.toNat < img.width := by omega
  rw [detectEdges_data_eq img p.1.toNat p.2.toNat hxw] at h5
  by_cases hint : 1 ≤ p.1.toNat ∧ p.1.toNat + 1 < img.width
      ∧ 1 ≤ p.2.toNat ∧ p.2.toNat + 1 < img.height
  · omega
  · rw [if_neg hint] at h5
    omega

/-- C10: every point of every emitted contour of the Sobel edge mask lies
strictly inside the working image's 1-pixel border, and within one contour
the points are pairwise distinct. -/
theorem c10_contour_points (img : Img) :
    ∀ c ∈ findContours (detectEdges img),
      (∀ p ∈ c, 1 ≤ p.1 ∧ p.1 ≤ (img.width : ℤ) - 2
        ∧ 1 ≤ p.2 ∧ p.2 ≤ (img.height : ℤ) - 2) ∧ c.Nodup := by
  refine findContours_all _ _ ?_
  intro v p _
  constructor
  · intro q hq
    have he := traceContour_src (detectEdges img) v [p] q hq
    have hint := edgeAt_detectEdges_interior img q he
    omega
  · exact traceContour_nodup _ v [p]

set_option maxRecDepth 8000 in
/-- C10 witness: the black/white image `img8` yields one 12-point contour;
its first point `(3,1)` is interior and the contour has no duplicates. -/
theorem c10_witness :
    1 ≤ (3 : ℤ) ∧ (3 : ℤ) ≤ (8 : ℤ) - 2 ∧ 1 ≤ (1 : ℤ) ∧ (1 : ℤ) ≤ (8 : ℤ) - 2 := by
  have heq : findContours (detectEdges img8) =
      [[((3:ℤ),(1:ℤ)),(4,2),(4,3),(4,4),(4,5),(4,6),(3,6),(3,5),(3,4),(3,3),(3,2),(4,1)]] := by
    with_unfolding_all decide
  have h := (c10_contour_points img8)
    [((3:ℤ),(1:ℤ)),(4,2),(4,3),(4,4),(4,5),(4,6),(3,6),(3,5),(3,4),(3,3),(3,2),(4,1)]
    (by rw [heq]; exact List.mem_singleton.mpr rfl)
  exact h.1 (3, 1) (by simp)

/-- C4: the edge mask marks no pixel of the 1-pixel border margin, and an
interior pixel is marked (its mask byte exceeds the 128 read threshold,
i.e. equals 255) iff `sqrt(gx² + gy²) > 50` for the Sobel responses `gx`,
`gy` of the luminance field `(R+G+B)/3`. -/
theorem c4_edge_detector (img : Img) :
    (∀ x y : ℕ, x < img.width → y < img.height →
      (x = 0 ∨ x + 1 = img.width ∨ y = 0 ∨ y + 1 = img.height) →
      ¬(128 < (detectEdges img).data ((y * img.width + x) * 4))) ∧
    (∀ x y : ℕ, 1 ≤ x → x + 1 < img.width → 1 ≤ y → y + 1 < img.height →
      ((128 < (detectEdges img).data ((y * img.width + x) * 4)) ↔
        Real.sqrt (((sobelGx img.data img.width x y) ^ 2
          + (sobelGy img.data img.width x y) ^ 2 : ℚ)) > 50)) := by
  constructor
  · intro x y hx _ hb
    rw [detectEdges_data_eq img x y hx]
    rw [if_neg (by omega)]
    omega
  · intro x y h1 h2 h3 h4
    rw [detectEdges_data_eq img x y (by omega)]
    rw [if_pos ⟨h1, h2, h3, h4⟩, edgeValue]
    by_cases hm : (sobelGx img.data img.width x y) ^ 2
        + (sobelGy img.data img.width x y) ^ 2 > 2500
    · rw [if_pos hm]
      refine iff_of_true (by norm_num) ?_
      rw [gt_iff_lt, show (50 : ℝ) = 50 from rfl]
      refine (Real.lt_sqrt (by norm_num)).mpr ?_
      have : (2500 : ℚ) < (sobelGx img.data img.width x y) ^ 2
          + (sobelGy img.data img.width x y) ^ 2 := hm
      push_cast
      exact_mod_cast this
    · rw [if_neg hm]
      refine iff_of_false (by norm_num) ?_
      rw [gt_iff_lt]
      intro hcon
      have h2500 : ((2500 : ℝ)) < (((sobelGx img.data img.width x y) ^ 2
          + (sobelGy img.data img.width x y) ^ 2 : ℚ) : ℝ) := by
        have := (Real.lt_sqrt (by norm_num : (0:ℝ) ≤ 50)).mp hcon
        calc (2500 : ℝ) = 50 ^ 2 := by norm_num
          _ < _ := this
      exact hm (by exact_mod_cast h2500)

/-- C4 witness: the iff at the interior pixel `(3,1)` of `img8`. -/
theorem c4_witness :
    (128 < (detectEdges img8).data ((1 * img8.width + 3) * 4)) ↔
      Real.sqrt (((sobelGx img8.data img8.width 3 1) ^ 2
        + (sobelGy img8.data img8.width 3 1) ^ 2 : ℚ)) > 50 :=
  (c4_edge_detector img8).2 3 1 (by norm_num) (by decide) (by norm_num) (by decide)

/-! ### C2 — what really happens at the 1000-point cap -/

/-- C2 (amended): when a trace reaches the 1000-point cap it stops with
exactly 1000 collected points; but pixels still pending on the stack are
*not* marked visited — after any trace, a visited edge pixel is either
previously visited or part of the returned contour, so there are no
visited-but-unassigned edge pixels, and remaining reachable pixels can
later start new regions during the raster scan. -/
theorem c2_cap_behavior (img : Img) (v : Pt → Bool) (stack : List Pt) :
    ((traceContour img v stack).2.1 ≠ [] →
      (traceContour img v stack).1.length = 1000) ∧
    (∀ q, edgeAt img q = true →
      ((traceContour img v stack).2.2 q = true ↔
        v q = true ∨ q ∈ (traceContour img v stack).1)) := by
  exact ⟨traceContour_cap img v stack, traceContour_edge_char img v stack⟩

/-- C2 witness: the visited-set characterization at the 12-pixel line. -/
theorem c2_witness :
    (traceContour line12 (fun _ => false) [((0 : ℤ), (0 : ℤ))]).2.2 (0, 0) = true ↔
      ((fun _ : Pt => false) ((0 : ℤ), (0 : ℤ)) = true ∨
        ((0 : ℤ), (0 : ℤ)) ∈ (traceContour line12 (fun _ => false) [((0 : ℤ), (0 : ℤ))]).1) :=
  (c2_cap_behavior line12 (fun _ => false) [((0 : ℤ), (0 : ℤ))]).2 (0, 0) (by decide)

theorem lineVisG_iff (v0 : Pt → Bool) (a : ℕ) :
    ∀ (k : ℕ) (q : Pt), lineVisG v0 a k q = true ↔
      (∃ j, j < k ∧ q = (((a + j : ℕ) : ℤ), 0)) ∨ v0 q = true := by
  intro k
  induction k with
  | zero =>
    intro q
    rw [lineVisG]
    constructor
    · exact Or.inr
    · rintro (⟨j, hj, _⟩ | hv)
      · omega
      · exact hv
  | succ m ih =>
    intro q
    rw [lineVisG, visit_eq_true_iff, ih]
    constructor
    · rintro (rfl | (⟨j, hj, rfl⟩ | hv))
      · exact Or.inl ⟨m, by omega, rfl⟩
      · exact Or.inl ⟨j, by omega, rfl⟩
      · exact Or.inr hv
    · rintro (⟨j, hj, rfl⟩ | hv)
      · by_cases hjm : j = m
        · subst hjm; exact Or.inl rfl
        · exact Or.inr (Or.inl ⟨j, by omega, rfl⟩)
      · exact Or.inr (Or.inr hv)

theorem lineCtr_length (a : ℕ) : ∀ k, (lineCtr a k).length = k := by
  intro k
  induction k with
  | zero => rfl
  | succ m ih => rw [lineCtr, List.length_cons, ih]

theorem lineCtr_mem (a : ℕ) :
    ∀ (k : ℕ) (q : Pt), q ∈ lineCtr a k ↔ ∃ j, j < k ∧ q = (((a + j : ℕ) : ℤ), 0) := by
  intro k
  induction k with
  | zero =>
    intro q
    rw [lineCtr]
    constructor
    · intro h; cases h
    · rintro ⟨j, hj, _⟩; omega
  | succ m ih =>
    intro q
    rw [lineCtr, List.mem_cons, ih]
    constructor
    · rintro (rfl | ⟨j, hj, rfl⟩)
      · exact ⟨m, by omega, rfl⟩
      · exact ⟨j, by omega, rfl⟩
    · rintro ⟨j, hj, rfl⟩
      by_cases hjm : j = m
      · subst hjm; exact Or.inl rfl
      · exact Or.inr ⟨j, by omega, rfl⟩

theorem edgeAt_bigLine (k : ℕ) (hk : k < 1020) :
    edgeAt bigLine (((k : ℕ) : ℤ), 0) = true := by
  simp only [edgeAt, bigLine, Bool.and_eq_true, decide_eq_true_eq]
  refine ⟨⟨⟨⟨by omega, by omega⟩, by omega⟩, by omega⟩, ?_⟩
  have h1 : ((0 : ℤ).toNat * 1020 + ((k : ℕ) : ℤ).toNat) * 4 = k * 4 := by
    simp
  rw [h1, if_pos (by omega)]
  omega

theorem pushNeighbors_line (v : Pt → Bool) (n : ℕ)
    (hn : n + 1 < 1020)
    (hvprev : ∀ j < n, v (((j : ℕ) : ℤ), 0) = true)
    (hvn : v (((n : ℕ) : ℤ), 0) = true)
    (hvnext : v (((n + 1 : ℕ) : ℤ), 0) = false) :
    pushNeighbors bigLine v (((n : ℕ) : ℤ), 0) = [(((n + 1 : ℕ) : ℤ), 0)] := by
  simp only [pushNeighbors, offsets, bigLine, List.map_cons, List.map_nil,
    List.filter_cons, List.filter_nil]
  rw [if_neg (by
    intro hcond
    simp only [Bool.and_eq_true, decide_eq_true_eq] at hcond
    omega)]
  rw [if_neg (by
    intro hcond
    simp only [Bool.and_eq_true, decide_eq_true_eq] at hcond
    omega)]
  rw [if_neg (by
    intro hcond
    simp only [Bool.and_eq_true, decide_eq_true_eq] at hcond
    omega)]
  rw [if_neg (by
    intro hcond
    simp only [Bool.and_eq_true, decide_eq_true_eq, Bool.not_eq_true'] at hcond
    obtain ⟨⟨⟨⟨hx0, _⟩, _⟩, _⟩, hfalse⟩ := hcond
    have hge : 1 ≤ n := by omega
    have heq : ((((n : ℕ) : ℤ) + -1, (0 : ℤ) + 0) : Pt) = (((n - 1 : ℕ) : ℤ), 0) := by
      simp only [Prod.mk.injEq]
      omega
    rw [heq] at hfalse
    rw [hvprev (n - 1) (by omega)] at hfalse
    cases hfalse)]
  rw [if_neg (by
    intro hcond
    simp only [Bool.and_eq_true, decide_eq_true_eq, Bool.not_eq_true'] at hcond
    obtain ⟨⟨⟨⟨hx0, _⟩, _⟩, _⟩, hfalse⟩ := hcond
    have heq : ((((n : ℕ) : ℤ) + 0, (0 : ℤ) + 0) : Pt) = (((n : ℕ) : ℤ), 0) := by
      simp only [Prod.mk.injEq]
      omega
    rw [heq] at hfalse
    rw [hvn] at hfalse
    cases hfalse)]
  have heq1 : ((((n : ℕ) : ℤ) + 1, (0 : ℤ) + 0) : Pt) = (((n + 1 : ℕ) : ℤ), 0) := by
    simp only [Prod.mk.injEq]
    omega
  rw [← heq1] at hvnext
  rw [if_pos (by
    simp only [Bool.and_eq_true, decide_eq_true_eq, Bool.not_eq_true']
    exact ⟨⟨⟨⟨by omega, by omega⟩, by omega⟩, by omega⟩, hvnext⟩)]
  rw [if_neg (by
    intro hcond
    simp only [Bool.and_eq_true, decide_eq_true_eq] at hcond
    omega)]
  rw [if_neg (by
    intro hcond
    simp only [Bool.and_eq_true, decide_eq_true_eq] at hcond
    omega)]
  rw [if_neg (by
    intro hcond
    simp only [Bool.and_eq_true, decide_eq_true_eq] at hcond
    omega)]
  rw [heq1]

theorem pushNeighbors_line_end (v : Pt → Bool)
    (hvprev : ∀ j < 1019, v (((j : ℕ) : ℤ), 0) = true)
    (hvn : v (((1019 : ℕ) : ℤ), 0) = true) :
    pushNeighbors bigLine v (((1019 : ℕ) : ℤ), 0) = [] := by
  simp only [pushNeighbors, offsets, bigLine, List.map_cons, List.map_nil,
    List.filter_cons, List.filter_nil]
  rw [if_neg (by
    intro hcond
    simp only [Bool.and_eq_true, decide_eq_true_eq] at hcond
    omega)]
  rw [if_neg (by
    intro hcond
    simp only [Bool.and_eq_true, decide_eq_true_eq] at hcond
    omega)]
  rw [if_neg (by
    intro hcond
    simp only [Bool.and_eq_true, decide_eq_true_eq] at hcond
    omega)]
  rw [if_neg (by
    intro hcond
    simp only [Bool.and_eq_true, decide_eq_true_eq, Bool.not_eq_true'] at hcond
    obtain ⟨⟨⟨⟨hx0, _⟩, _⟩, _⟩, hfalse⟩ := hcond
    have heq : ((((1019 : ℕ) : ℤ) + -1, (0 : ℤ) + 0) : Pt) = (((1018 : ℕ) : ℤ), 0) := by
      simp only [Prod.mk.injEq]
      omega
    rw [heq] at hfalse
    rw [hvprev 1018 (by omega)] at hfalse
    cases hfalse)]
  rw [if_neg (by
    intro hcond
    simp only [Bool.and_eq_true, decide_eq_true_eq, Bool.not_eq_true'] at hcond
    obtain ⟨⟨⟨⟨hx0, _⟩, _⟩, _⟩, hfalse⟩ := hcond
    have heq : ((((1019 : ℕ) : ℤ) + 0, (0 : ℤ) + 0) : Pt) = (((1019 : ℕ) : ℤ), 0) := by
      simp only [Prod.mk.injEq]
      omega
    rw [heq] at hfalse
    rw [hvn] at hfalse
    cases hfalse)]
  rw [if_neg (by
    intro hcond
    simp only [Bool.and_eq_true, decide_eq_true_eq] at hcond
    omega)]
  rw [if_neg (by
    intro hcond
    simp only [Bool.and_eq_true, decide_eq_true_eq] at hcond
    omega)]
  rw [if_neg (by
    intro hcond
    simp only [Bool.and_eq_true, decide_eq_true_eq] at hcond
    omega)]
  rw [if_neg (by
    intro hcond
    simp only [Bool.and_eq_true, decide_eq_true_eq] at hcond
    omega)]

theorem bool_eq_false_of (b : Bool) (h : ¬b = true) : b = false := by
  cases b
  · rfl
  · exact absurd rfl h

/-- The first trace on `bigLine`: from the state that has collected
`(0,0) … (k-1,0)` with `(k,0)` on the stack, the loop runs to the
1000-point cap, stopping with `(1000,0)` still pending and unvisited. -/
theorem bigLine_trace1 (v0 : Pt → Bool)
    (hv0 : ∀ j < 1020, v0 (((j : ℕ) : ℤ), 0) = false) :
    ∀ (j k m : ℕ), k + j = 1000 → j ≤ m →
      traceGo bigLine (m + 1) (lineVisG v0 0 k) [(((k : ℕ) : ℤ), 0)] (lineCtr 0 k) =
        ((lineCtr 0 1000).reverse, [(((1000 : ℕ) : ℤ), 0)], lineVisG v0 0 1000) := by
  intro j
  induction j with
  | zero =>
    intro k m hk _
    obtain rfl : k = 1000 := by omega
    rw [traceGo, if_pos (by rw [lineCtr_length])]
  | succ j' ih =>
    intro k m hk hm
    obtain ⟨m', rfl⟩ : ∃ m', m = m' + 1 := ⟨m - 1, by omega⟩
    rw [traceGo]
    rw [if_neg (by rw [lineCtr_length]; omega)]
    rw [if_neg (by
      rw [lineVisG_iff]
      rintro (⟨i, hi, hpe⟩ | hfalse)
      · rw [Prod.mk.injEq] at hpe; omega
      · rw [hv0 k (by omega)] at hfalse; cases hfalse)]
    rw [if_pos (edgeAt_bigLine k (by omega))]
    have hzk : visit (lineVisG v0 0 k) (((k : ℕ) : ℤ), 0) = lineVisG v0 0 (k + 1) := by
      rw [lineVisG, Nat.zero_add]
    rw [hzk]
    rw [pushNeighbors_line (lineVisG v0 0 (k + 1)) k (by omega)
      (by
        intro i hi
        rw [lineVisG_iff]
        exact Or.inl ⟨i, by omega, by rw [Nat.zero_add]⟩)
      (by
        rw [lineVisG_iff]
        exact Or.inl ⟨k, by omega, by rw [Nat.zero_add]⟩)
      (bool_eq_false_of _ (by
        rw [lineVisG_iff]
        rintro (⟨i, hi, hpe⟩ | hfalse)
        · rw [Prod.mk.injEq] at hpe; omega
        · rw [hv0 (k + 1) (by omega)] at hfalse; cases hfalse))]
    have hctr : (((k : ℕ) : ℤ), (0 : ℤ)) :: lineCtr 0 k = lineCtr 0 (k + 1) := by
      rw [lineCtr, Nat.zero_add]
    simp only [List.reverse_cons, List.reverse_nil, List.nil_append, List.append_nil]
    rw [hctr]
    exact ih (k + 1) m' (by omega) (by omega)

/-- The second trace on `bigLine`: starting from `(1000+k,0)` with the
first 1000 pixels (and `(1000,0) … (1000+k-1,0)`) visited, the loop
collects through `(1019,0)` and exits with an empty stack. -/
theorem bigLine_trace2 (v1 : Pt → Bool)
    (h1 : ∀ j < 1000, v1 (((j : ℕ) : ℤ), 0) = true)
    (h2 : ∀ j, 1000 ≤ j → j < 1020 → v1 (((j : ℕ) : ℤ), 0) = false) :
    ∀ (j k m : ℕ), k + j = 19 → j + 1 ≤ m →
      traceGo bigLine (m + 1) (lineVisG v1 1000 k) [(((1000 + k : ℕ) : ℤ), 0)] (lineCtr 1000 k) =
        ((lineCtr 1000 20).reverse, [], lineVisG v1 1000 20) := by
  have hvisited : ∀ (k : ℕ) (i : ℕ), i < 1000 + k → lineVisG v1 1000 k (((i : ℕ) : ℤ), 0) = true := by
    intro k i hi
    rw [lineVisG_iff]
    by_cases hlt : i < 1000
    · exact Or.inr (h1 i hlt)
    · exact Or.inl ⟨i - 1000, by omega, by simp only [Prod.mk.injEq]; exact ⟨by omega, trivial⟩⟩
  have hunvisited : ∀ (k : ℕ) (i : ℕ), 1000 + k ≤ i → i < 1020 →
      lineVisG v1 1000 k (((i : ℕ) : ℤ), 0) = false := by
    intro k i hi hi2
    refine bool_eq_false_of _ ?_
    rw [lineVisG_iff]
    rintro (⟨i', hi', hpe⟩ | hfalse)
    · rw [Prod.mk.injEq] at hpe; omega
    · rw [h2 i (by omega) (by omega)] at hfalse; cases hfalse
  intro j
  induction j with
  | zero =>
    intro k m hk hm
    obtain rfl : k = 19 := by omega
    obtain ⟨m', rfl⟩ : ∃ m', m = m' + 1 := ⟨m - 1, by omega⟩
    rw [traceGo]
    rw [if_neg (by rw [lineCtr_length]; omega)]
    rw [if_neg (by
      intro h
      rw [hunvisited 19 (1000 + 19) (by omega) (by omega)] at h
      cases h)]
    rw [if_pos (edgeAt_bigLine (1000 + 19) (by omega))]
    have hzk : visit (lineVisG v1 1000 19) (((1000 + 19 : ℕ) : ℤ), 0) = lineVisG v1 1000 20 :=
      rfl
    rw [hzk]
    rw [show (((1000 + 19 : ℕ) : ℤ), (0 : ℤ)) = (((1019 : ℕ) : ℤ), (0 : ℤ)) from rfl]
    rw [pushNeighbors_line_end (lineVisG v1 1000 20)
      (fun i hi => hvisited 20 i (by omega))
      (hvisited 20 1019 (by omega))]
    have hctr : (((1019 : ℕ) : ℤ), (0 : ℤ)) :: lineCtr 1000 19 = lineCtr 1000 20 :=
      rfl
    simp only [List.reverse_nil, List.nil_append]
    rw [hctr, traceGo]
  | succ j' ih =>
    intro k m hk hm
    obtain ⟨m', rfl⟩ : ∃ m', m = m' + 1 := ⟨m - 1, by omega⟩
    rw [traceGo]
    rw [if_neg (by rw [lineCtr_length]; omega)]
    rw [if_neg (by
      intro h
      rw [hunvisited k (1000 + k) (by omega) (by omega)] at h
      cases h)]
    rw [if_pos (edgeAt_bigLine (1000 + k) (by omega))]
    have hzk : visit (lineVisG v1 1000 k) (((1000 + k : ℕ) : ℤ), 0) = lineVisG v1 1000 (k + 1) := by
      rw [lineVisG]
    rw [hzk]
    rw [pushNeighbors_line (lineVisG v1 1000 (k + 1)) (1000 + k) (by omega)
      (fun i hi => hvisited (k + 1) i (by omega))
      (hvisited (k + 1) (1000 + k) (by omega))
      (hunvisited (k + 1) (1000 + k + 1) (by omega) (by omega))]
    have hctr : (((1000 + k : ℕ) : ℤ), (0 : ℤ)) :: lineCtr 1000 k = lineCtr 1000 (k + 1) := by
      rw [lineCtr]
    simp only [List.reverse_cons, List.reverse_nil, List.nil_append, List.append_nil]
    rw [hctr]
    exact ih (k + 1) m' (by omega) (by omega)

theorem bigLine_first :
    traceContour bigLine (fun _ => false) [(((0 : ℕ) : ℤ), 0)] =
      ((lineCtr 0 1000).reverse, [(((1000 : ℕ) : ℤ), 0)],
        lineVisG (fun _ => false) 0 1000) := by
  rw [traceContour]
  rw [show traceFuel bigLine [(((0 : ℕ) : ℤ), 0)] = 10201 + 1 from rfl]
  exact bigLine_trace1 (fun _ => false) (fun j _ => rfl) 1000 0 10201 (by omega) (by omega)

theorem bigLine_second :
    traceContour bigLine (lineVisG (fun _ => false) 0 1000) [(((1000 : ℕ) : ℤ), 0)] =
      ((lineCtr 1000 20).reverse, [],
        lineVisG (lineVisG (fun _ => false) 0 1000) 1000 20) := by
  rw [traceContour]
  rw [show traceFuel bigLine [(((1000 : ℕ) : ℤ), 0)] = 10201 + 1 from rfl]
  exact bigLine_trace2 (lineVisG (fun _ => false) 0 1000)
    (by
      intro j hj
      rw [lineVisG_iff]
      exact Or.inl ⟨j, by omega, by rw [Nat.zero_add]⟩)
    (by
      intro j hj hj2
      refine bool_eq_false_of _ ?_
      rw [lineVisG_iff]
      rintro (⟨i, hi, hpe⟩ | hfalse)
      · rw [Prod.mk.injEq] at hpe; omega
      · cases hfalse)
    19 0 10201 (by omega) (by omega)

theorem scanFold_skip (img : Img) :
    ∀ (l : List Pt) (st : (Pt → Bool) × List (List Pt)),
      (∀ p ∈ l, st.1 p = true) → List.foldl (scanStep img) st l = st := by
  intro l
  induction l with
  | nil => intro st _; rfl
  | cons p r ih =>
    intro st h
    rw [List.foldl_cons, scanStep, if_pos (h p (List.mem_cons_self p r))]
    exact ih st (fun q hq => h q (List.mem_cons_of_mem p hq))

theorem allPts_one_row (w : ℕ) :
    allPts w 1 = (List.range w).map fun (x : ℕ) => ((x : ℤ), 0) := by
  rw [allPts, show List.range 1 = [0] from rfl, List.flatMap_cons, List.flatMap_nil,
    List.append_nil]
  simp

theorem scanStep_emit (img : Img) (v : Pt → Bool) (acc : List (List Pt)) (p : Pt)
    (hv : v p = false) (he : edgeAt img p = true)
    (c st2 : List Pt) (v2 : Pt → Bool)
    (ht : traceContour img v [p] = (c, st2, v2)) (hlen : 10 < c.length) :
    scanStep img (v, acc) p = (v2, acc ++ [c]) := by
  show (if v p = true then ((v, acc) : (Pt → Bool) × List (List Pt))
    else if edgeAt img p = true then
      if 10 < (traceContour img v [p]).1.length then
        ((traceContour img v [p]).2.2, acc ++ [(traceContour img v [p]).1])
      else ((traceContour img v [p]).2.2, acc)
    else (v, acc)) = (v2, acc ++ [c])
  rw [hv]
  rw [if_neg Bool.false_ne_true]
  rw [if_pos he]
  rw [ht]
  rw [if_pos hlen]

theorem bigLine_scanA :
    scanStep bigLine (fun _ => false, []) (((0 : ℕ) : ℤ), 0) =
      (lineVisG (fun _ => false) 0 1000, [(lineCtr 0 1000).reverse]) :=
  scanStep_emit bigLine (fun _ => false) [] (((0 : ℕ) : ℤ), 0) rfl
    (edgeAt_bigLine 0 (by omega)) ((lineCtr 0 1000).reverse)
    [(((1000 : ℕ) : ℤ), 0)] (lineVisG (fun _ => false) 0 1000) bigLine_first
    (by rw [List.length_reverse, lineCtr_length]; omega)

theorem bigLine_scanC :
    scanStep bigLine (lineVisG (fun _ => false) 0 1000, [(lineCtr 0 1000).reverse])
      (((1000 : ℕ) : ℤ), 0) =
      (lineVisG (lineVisG (fun _ => false) 0 1000) 1000 20,
        [(lineCtr 0 1000).reverse, (lineCtr 1000 20).reverse]) := by
  refine scanStep_emit bigLine
    (lineVisG (fun _ => false) 0 1000) [(lineCtr 0 1000).reverse]
    (((1000 : ℕ) : ℤ), 0) ?_ (edgeAt_bigLine 1000 (by omega))
    ((lineCtr 1000 20).reverse) [] (lineVisG (lineVisG (fun _ => false) 0 1000) 1000 20)
    bigLine_second (by rw [List.length_reverse, lineCtr_length]; omega)
  refine bool_eq_false_of _ ?_
  intro h
  rw [lineVisG_iff] at h
  rcases h with ⟨i, hi, hpe⟩ | hfalse
  · rw [Prod.mk.injEq] at hpe; omega
  · cases hfalse

/-- The full raster scan on `bigLine`: the 1020-pixel blob is emitted as
two contours — the first 1000 pixels (stopped by the cap), then the
remaining 20 pixels as a separate region. -/
theorem findContours_bigLine :
    findContours bigLine = [(lineCtr 0 1000).reverse, (lineCtr 1000 20).reverse] := by
  have hA : List.range' 1000 1 ++ List.range' 1001 19 = List.range' 1000 20 :=
    List.range'_append 1000 1 19 1
  have hB : List.range' 1 999 ++ List.range' 1000 20 = List.range' 1 1019 :=
    List.range'_append 1 999 20 1
  have hC : List.range' 0 1 ++ List.range' 1 1019 = List.range' 0 1020 :=
    List.range'_append 0 1 1019 1
  have hsplit : List.range 1020 =
      List.range' 0 1 ++ (List.range' 1 999 ++ (List.range' 1000 1 ++ List.range' 1001 19)) := by
    rw [List.range_eq_range', ← hC, ← hB, ← hA]
  have hskip1 : List.foldl (scanStep bigLine)
      (lineVisG (fun _ => false) 0 1000, [(lineCtr 0 1000).reverse])
      ((List.range' 1 999).map fun (x : ℕ) => ((x : ℤ), 0)) =
      (lineVisG (fun _ => false) 0 1000, [(lineCtr 0 1000).reverse]) := by
    refine scanFold_skip bigLine _ _ ?_
    intro p hp
    rw [List.mem_map] at hp
    obtain ⟨x, hx, rfl⟩ := hp
    rw [List.mem_range'_1] at hx
    show lineVisG (fun _ => false) 0 1000 ((x : ℤ), 0) = true
    rw [lineVisG_iff]
    exact Or.inl ⟨x, by omega, by rw [Prod.mk.injEq]; exact ⟨by omega, rfl⟩⟩
  have hskip2 : List.foldl (scanStep bigLine)
      (lineVisG (lineVisG (fun _ => false) 0 1000) 1000 20,
        [(lineCtr 0 1000).reverse, (lineCtr 1000 20).reverse])
      ((List.range' 1001 19).map fun (x : ℕ) => ((x : ℤ), 0)) =
      (lineVisG (lineVisG (fun _ => false) 0 1000) 1000 20,
        [(lineCtr 0 1000).reverse, (lineCtr 1000 20).reverse]) := by
    refine scanFold_skip bigLine _ _ ?_
    intro p hp
    rw [List.mem_map] at hp
    obtain ⟨x, hx, rfl⟩ := hp
    rw [List.mem_range'_1] at hx
    show lineVisG (lineVisG (fun _ => false) 0 1000) 1000 20 ((x : ℤ), 0) = true
    rw [lineVisG_iff]
    exact Or.inl ⟨x - 1000, by omega, by rw [Prod.mk.injEq]; exact ⟨by omega, rfl⟩⟩
  rw [findContours]
  rw [show bigLine.width = 1020 from rfl, show bigLine.height = 1 from rfl]
  rw [allPts_one_row, hsplit]
  rw [List.map_append, List.map_append, List.map_append]
  rw [List.foldl_append, List.foldl_append, List.foldl_append]
  rw [show (List.range' 0 1).map (fun (x : ℕ) => ((x : ℤ), 0)) =
    [(((0 : ℕ) : ℤ), (0 : ℤ))] from rfl]
  rw [List.foldl_cons, List.foldl_nil]
  rw [bigLine_scanA, hskip1]
  rw [show (List.range' 1000 1).map (fun (x : ℕ) => ((x : ℤ), 0)) =
    [(((1000 : ℕ) : ℤ), (0 : ℤ))] from rfl]
  rw [List.foldl_cons, List.foldl_nil]
  rw [bigLine_scanC, hskip2]

/-- Rightward reachability along a horizontal run of edge pixels. -/
theorem reach_right (img : Img) (y : ℤ) (a : ℕ) :
    ∀ j : ℕ, (∀ i ≤ j, edgeAt img (((a + i : ℕ) : ℤ), y) = true) →
      Reach img (((a : ℕ) : ℤ), y) (((a + j : ℕ) : ℤ), y) := by
  intro j
  induction j with
  | zero => intro _; exact Relation.ReflTransGen.refl
  | succ n ih =>
    intro h
    refine Relation.ReflTransGen.tail (ih fun i hi => h i (by omega)) ?_
    refine ⟨h (n + 1) (by omega), (1, 0), by simp [offsets], ?_⟩
    rw [Prod.mk.injEq]
    refine ⟨by push_cast; ring, by rw [add_zero]⟩

/-- C2 counterexample to the claim as stated: on the all-edge 1020 × 1
mask, the first trace stops at the 1000-point cap leaving pixel
`(1000,0)` — reachable from the first region's start `(0,0)` — unvisited;
the raster scan then starts a *new* region there, and the output contains
a second 20-point contour holding that pixel instead of dropping it. -/
theorem c2_cap_counterexample :
    (findContours bigLine).map List.length = [1000, 20] ∧
    ((((1000 : ℕ) : ℤ), (0 : ℤ)) ∈ (findContours bigLine).getD 1 []) ∧
    Reach bigLine (((0 : ℕ) : ℤ), 0) (((1000 : ℕ) : ℤ), 0) := by
  refine ⟨?_, ?_, ?_⟩
  · rw [findContours_bigLine]
    rw [List.map_cons, List.map_cons, List.map_nil]
    rw [List.length_reverse, List.length_reverse, lineCtr_length, lineCtr_length]
  · rw [findContours_bigLine]
    show (((1000 : ℕ) : ℤ), (0 : ℤ)) ∈ (lineCtr 1000 20).reverse
    rw [List.mem_reverse, lineCtr_mem]
    exact ⟨0, by omega, rfl⟩
  · have h := reach_right bigLine 0 0 1000 (by
      intro i hi
      rw [Nat.zero_add]
      exact edgeAt_bigLine i (by omega))
    exact h

/-! ### C9 — two disjoint blobs of sizes 50 and 5 -/

theorem reach_closed (img : Img) (S : Finset Pt) (s : Pt) (hs : s ∈ S)
    (hcl : ∀ x ∈ S, ∀ y, edgeAt img y = true → adjp x y → y ∈ S) :
    ∀ q, Reach img s q → q ∈ S := by
  intro q hq
  induction hq with
  | refl => exact hs
  | tail hr hstep ih => exact hcl _ ih _ hstep.1 hstep.2

theorem scanStep_visited_mono (img : Img) (st : (Pt → Bool) × List (List Pt)) (p q : Pt)
    (h : st.1 q = true) : (scanStep img st p).1 q = true := by
  rw [scanStep]
  by_cases h1 : st.1 p = true
  · rw [if_pos h1]; exact h
  · rw [if_neg h1]
    by_cases h2 : edgeAt img p = true
    · rw [if_pos h2]
      by_cases h3 : 10 < (traceContour img st.1 [p]).1.length
      · rw [if_pos h3]
        exact traceContour_mono img st.1 [p] q h
      · rw [if_neg h3]
        exact traceContour_mono img st.1 [p] q h
    · rw [if_neg h2]; exact h

theorem scanFold_visited_mono (img : Img) :
    ∀ (l : List Pt) (st : (Pt → Bool) × List (List Pt)) (q : Pt),
      st.1 q = true → (List.foldl (scanStep img) st l).1 q = true := by
  intro l
  induction l with
  | nil => intro st q h; exact h
  | cons p rest ih =>
    intro st q h
    rw [List.foldl_cons]
    exact ih _ q (scanStep_visited_mono img st p q h)

theorem scanStep_visits_self (img : Img) (st : (Pt → Bool) × List (List Pt)) (p : Pt)
    (he : edgeAt img p = true) : (scanStep img st p).1 p = true := by
  rw [scanStep]
  by_cases h1 : st.1 p = true
  · rw [if_pos h1]; exact h1
  · rw [if_neg h1]
    rw [if_pos he]
    have hmem : p ∈ (traceContour img st.1 [p]).1 :=
      traceContour_start_mem img st.1 p (bool_eq_false_of _ h1) he
    have hvis : (traceContour img st.1 [p]).2.2 p = true :=
      (traceContour_edge_char img st.1 [p] p he).mpr (Or.inr hmem)
    by_cases h3 : 10 < (traceContour img st.1 [p]).1.length
    · rw [if_pos h3]; exact hvis
    · rw [if_neg h3]; exact hvis

theorem scanFold_visits (img : Img) :
    ∀ (l : List Pt) (st : (Pt → Bool) × List (List Pt)) (p : Pt), p ∈ l →
      edgeAt img p = true → (List.foldl (scanStep img) st l).1 p = true := by
  intro l
  induction l with
  | nil => intro st p hp _; cases hp
  | cons q rest ih =>
    intro st p hp he
    rw [List.foldl_cons]
    rcases List.mem_cons.mp hp with rfl | hp
    · exact scanFold_visited_mono img rest _ p (scanStep_visits_self img st p he)
    · exact ih _ p hp he

/-- The raster-scan invariant for a mask whose edge set is the union of two
mutually non-adjacent connected blobs `A` (50 pixels) and `B` (5 pixels):
at every point of the scan the visited edge pixels are exactly the blobs
already traced (flags `SA`, `SB`), and the accumulator holds the `A`
contour exactly when `A` has been traced (the `B` trace has 5 ≤ 10 points
and is never emitted). -/
theorem c9_scan_inv (img : Img) (A B : Finset Pt)
    (hE : ∀ p, edgeAt img p = true ↔ p ∈ A ∨ p ∈ B)
    (hAcard : A.card = 50) (hBcard : B.card = 5)
    (hconnA : ∀ a ∈ A, ∀ b ∈ A, Reach img a b)
    (hconnB : ∀ a ∈ B, ∀ b ∈ B, Reach img a b)
    (hsepAB : ∀ a ∈ A, ∀ b ∈ B, ¬ adjp a b)
    (hsepBA : ∀ b ∈ B, ∀ a ∈ A, ¬ adjp b a) :
    ∀ (l : List Pt) (st : (Pt → Bool) × List (List Pt)) (SA SB : Bool),
      (∀ q, edgeAt img q = true →
        (st.1 q = true ↔ (SA = true ∧ q ∈ A) ∨ (SB = true ∧ q ∈ B))) →
      (if SA = true then
        ∃ c, st.2 = [c] ∧ (∀ p, p ∈ c ↔ p ∈ A) ∧ c.Nodup ∧ c.length = 50
       else st.2 = []) →
      ∃ SA2 SB2 : Bool,
        (∀ q, edgeAt img q = true →
          ((List.foldl (scanStep img) st l).1 q = true ↔
            (SA2 = true ∧ q ∈ A) ∨ (SB2 = true ∧ q ∈ B))) ∧
        (if SA2 = true then
          ∃ c, (List.foldl (scanStep img) st l).2 = [c] ∧
            (∀ p, p ∈ c ↔ p ∈ A) ∧ c.Nodup ∧ c.length = 50
         else (List.foldl (scanStep img) st l).2 = []) := by
  have hdisj : ∀ x, x ∈ A → x ∈ B → False :=
    fun x hxA hxB => hsepAB x hxA x hxB (adjp_self x)
  have hAset : ∀ s ∈ A, ∀ q, Reach img s q ↔ q ∈ A := by
    intro s hs q
    constructor
    · refine fun h => reach_closed img A s hs ?_ q h
      intro x hx y hey hadj
      rcases (hE y).mp hey with h2 | h2
      · exact h2
      · exact absurd hadj (hsepAB x hx y h2)
    · exact fun h => hconnA s hs q h
  have hBset : ∀ s ∈ B, ∀ q, Reach img s q ↔ q ∈ B := by
    intro s hs q
    constructor
    · refine fun h => reach_closed img B s hs ?_ q h
      intro x hx y hey hadj
      rcases (hE y).mp hey with h2 | h2
      · exact absurd hadj (hsepBA x hx y h2)
      · exact h2
    · exact fun h => hconnB s hs q h
  intro l
  induction l with
  | nil => intro st SA SB h1 h2; exact ⟨SA, SB, h1, h2⟩
  | cons p rest ih =>
    intro st SA SB h1 h2
    rw [List.foldl_cons]
    by_cases hv : st.1 p = true
    · rw [scanStep, if_pos hv]
      exact ih st SA SB h1 h2
    · by_cases he : edgeAt img p = true
      · have hvp : st.1 p = false := bool_eq_false_of _ hv
        rcases (hE p).mp he with hpA | hpB
        · -- the scan reaches blob A: its 50-point contour is traced and emitted
          have hSA : SA = false := by
            cases SA with
            | false => rfl
            | true =>
              exfalso
              have hmem := (h1 p he).mpr (Or.inl ⟨rfl, hpA⟩)
              rw [hvp] at hmem
              exact Bool.false_ne_true hmem
          have hunv : ∀ q ∈ A, st.1 q = false := by
            intro q hq
            refine bool_eq_false_of _ ?_
            intro htrue
            rcases (h1 q ((hE q).mpr (Or.inl hq))).mp htrue with ⟨hSAt, _⟩ | ⟨_, hqB⟩
            · rw [hSA] at hSAt; exact Bool.false_ne_true hSAt
            · exact hdisj q hq hqB
          obtain ⟨hstk, hmemA, hnd, hlen, hch⟩ :=
            traceContour_component img st.1 p A hpA
              (fun q hq => (hE q).mpr (Or.inl hq)) (hAset p hpA) (by omega) hunv
          rw [scanStep, if_neg hv, if_pos he, if_pos (by rw [hlen]; omega)]
          refine ih _ true SB ?_ ?_
          · intro q hq
            show (traceContour img st.1 [p]).2.2 q = true ↔
              (true = true ∧ q ∈ A) ∨ (SB = true ∧ q ∈ B)
            rw [hch q hq, h1 q hq]
            constructor
            · rintro (h3 | h3)
              · rcases h3 with ⟨hSAt, _⟩ | hB3
                · rw [hSA] at hSAt; exact absurd hSAt Bool.false_ne_true
                · exact Or.inr hB3
              · exact Or.inl ⟨rfl, h3⟩
            · rintro (⟨_, hqA⟩ | hB3)
              · exact Or.inr hqA
              · exact Or.inl (Or.inr hB3)
          · have hst2 : st.2 = [] := by
              rw [hSA, if_neg Bool.false_ne_true] at h2
              exact h2
            show (if true = true then
              ∃ c, st.2 ++ [(traceContour img st.1 [p]).1] = [c] ∧
                (∀ r, r ∈ c ↔ r ∈ A) ∧ c.Nodup ∧ c.length = 50
             else st.2 ++ [(traceContour img st.1 [p]).1] = [])
            rw [if_pos rfl]
            refine ⟨(traceContour img st.1 [p]).1, ?_, hmemA, hnd, by rw [hlen, hAcard]⟩
            rw [hst2, List.nil_append]
        · -- the scan reaches blob B: its 5-point trace is never emitted
          have hSB : SB = false := by
            cases SB with
            | false => rfl
            | true =>
              exfalso
              have hmem := (h1 p he).mpr (Or.inr ⟨rfl, hpB⟩)
              rw [hvp] at hmem
              exact Bool.false_ne_true hmem
          have hunv : ∀ q ∈ B, st.1 q = false := by
            intro q hq
            refine bool_eq_false_of _ ?_
            intro htrue
            rcases (h1 q ((hE q).mpr (Or.inr hq))).mp htrue with ⟨_, hqA⟩ | ⟨hSBt, _⟩
            · exact hdisj q hqA hq
            · rw [hSB] at hSBt; exact Bool.false_ne_true hSBt
          obtain ⟨hstk, hmemB, hnd, hlen, hch⟩ :=
            traceContour_component img st.1 p B hpB
              (fun q hq => (hE q).mpr (Or.inr hq)) (hBset p hpB) (by omega) hunv
          rw [scanStep, if_neg hv, if_pos he, if_neg (by rw [hlen, hBcard]; omega)]
          refine ih _ SA true ?_ ?_
          · intro q hq
            show (traceContour img st.1 [p]).2.2 q = true ↔
              (SA = true ∧ q ∈ A) ∨ (true = true ∧ q ∈ B)
            rw [hch q hq, h1 q hq]
            constructor
            · rintro (h3 | h3)
              · rcases h3 with hA3 | ⟨hSBt, _⟩
                · exact Or.inl hA3
                · rw [hSB] at hSBt; exact absurd hSBt Bool.false_ne_true
              · exact Or.inr ⟨rfl, h3⟩
            · rintro (hA3 | ⟨_, hqB⟩)
              · exact Or.inl (Or.inl hA3)
              · exact Or.inr hqB
          · exact h2
      · rw [scanStep, if_neg hv, if_neg he]
        exact ih st SA SB h1 h2

/-- C9: for any edge mask whose edge pixels form exactly two disjoint,
mutually non-adjacent, internally 8-connected blobs `A` (50 pixels) and
`B` (5 pixels), `findContours` outputs exactly one contour, whose points
are exactly the pixels of `A`; the 5-pixel blob is traced but dropped by
the `> 10` length filter. -/
theorem c9_two_blobs (img : Img) (A B : Finset Pt)
    (hE : ∀ p, edgeAt img p = true ↔ p ∈ A ∨ p ∈ B)
    (hAcard : A.card = 50) (hBcard : B.card = 5)
    (hconnA : ∀ a ∈ A, ∀ b ∈ A, Reach img a b)
    (hconnB : ∀ a ∈ B, ∀ b ∈ B, Reach img a b)
    (hsepAB : ∀ a ∈ A, ∀ b ∈ B, ¬ adjp a b)
    (hsepBA : ∀ b ∈ B, ∀ a ∈ A, ¬ adjp b a) :
    ∃ c, findContours img = [c] ∧ (∀ p, p ∈ c ↔ p ∈ A) ∧ c.Nodup ∧ c.length = 50 := by
  have hdisj : ∀ x, x ∈ A → x ∈ B → False :=
    fun x hxA hxB => hsepAB x hxA x hxB (adjp_self x)
  obtain ⟨a, haA⟩ := Finset.card_pos.mp (show 0 < A.card by rw [hAcard]; omega)
  obtain ⟨SA2, SB2, hchar, hacc⟩ :=
    c9_scan_inv img A B hE hAcard hBcard hconnA hconnB hsepAB hsepBA
      (allPts img.width img.height) (fun _ => false, []) false false
      (by intro q hq; simp) (by simp)
  have haedge : edgeAt img a = true := (hE a).mpr (Or.inl haA)
  have hain : a ∈ allPts img.width img.height := by
    rw [mem_allPts]
    exact edgeAt_inB img a haedge
  have havis := scanFold_visits img (allPts img.width img.height)
    (fun _ => false, []) a hain haedge
  have hSA2 : SA2 = true := by
    rcases (hchar a haedge).mp havis with ⟨h3, _⟩ | ⟨_, haB⟩
    · exact h3
    · exact absurd haB (fun hb => hdisj a haA hb)
  rw [hSA2, if_pos rfl] at hacc
  obtain ⟨c, hc1, hc2, hc3, hc4⟩ := hacc
  refine ⟨c, ?_, hc2, hc3, hc4⟩
  rw [findContours]
  exact hc1

/-! #### The concrete two-blob witness mask -/

theorem edgeAt_twoBlob (x y : ℤ) :
    edgeAt twoBlob (x, y) = true ↔
      (0 ≤ x ∧ x < 56 ∧ y = 0 ∧ (x < 50 ∨ 51 ≤ x)) := by
  simp only [edgeAt, twoBlob, Bool.and_eq_true, decide_eq_true_eq]
  constructor
  · rintro ⟨⟨⟨⟨hx0, hx56⟩, hy0⟩, hy1⟩, hdata⟩
    have hy : y = 0 := by omega
    subst hy
    refine ⟨hx0, by omega, rfl, ?_⟩
    split at hdata
    · rename_i hcond
      omega
    · omega
  · rintro ⟨hx0, hx56, hy, hd⟩
    subst hy
    refine ⟨⟨⟨⟨hx0, by omega⟩, by omega⟩, by omega⟩, ?_⟩
    split
    · omega
    · rename_i hn
      exfalso
      omega

theorem mem_blobA (p : Pt) : p ∈ blobA ↔ ∃ x : ℕ, x < 50 ∧ p = ((x : ℤ), 0) := by
  rw [blobA, Finset.mem_image]
  constructor
  · rintro ⟨x, hx, rfl⟩
    exact ⟨x, Finset.mem_range.mp hx, rfl⟩
  · rintro ⟨x, hx, rfl⟩
    exact ⟨x, Finset.mem_range.mpr hx, rfl⟩

theorem mem_blobB (p : Pt) :
    p ∈ blobB ↔ ∃ x : ℕ, x < 5 ∧ p = (((51 + x : ℕ) : ℤ), 0) := by
  rw [blobB, Finset.mem_image]
  constructor
  · rintro ⟨x, hx, rfl⟩
    exact ⟨x, Finset.mem_range.mp hx, rfl⟩
  · rintro ⟨x, hx, rfl⟩
    exact ⟨x, Finset.mem_range.mpr hx, rfl⟩

theorem blobA_card : blobA.card = 50 := by
  have hinj : Function.Injective fun (x : ℕ) => ((x : ℤ), (0 : ℤ)) := by
    intro a b h
    rw [Prod.mk.injEq] at h
    exact_mod_cast h.1
  rw [blobA, Finset.card_image_of_injective _ hinj, Finset.card_range]

theorem blobB_card : blobB.card = 5 := by
  have hinj : Function.Injective fun (x : ℕ) => (((51 + x : ℕ) : ℤ), (0 : ℤ)) := by
    intro a b h
    rw [Prod.mk.injEq] at h
    have h1 := h.1
    omega
  rw [blobB, Finset.card_image_of_injective _ hinj, Finset.card_range]

/-- Leftward reachability along a horizontal run of edge pixels. -/
theorem reach_left (img : Img) (y : ℤ) (a : ℕ) :
    ∀ j : ℕ, (∀ i ≤ j, edgeAt img (((a + i : ℕ) : ℤ), y) = true) →
      Reach img (((a + j : ℕ) : ℤ), y) (((a : ℕ) : ℤ), y) := by
  intro j
  induction j with
  | zero => intro _; exact Relation.ReflTransGen.refl
  | succ n ih =>
    intro h
    refine Relation.ReflTransGen.head ?_ (ih fun i hi => h i (by omega))
    refine ⟨h n (by omega), (-1, 0), by simp [offsets], ?_⟩
    rw [Prod.mk.injEq]
    constructor
    · push_cast
      ring
    · rw [add_zero]

theorem twoBlob_connA : ∀ a ∈ blobA, ∀ b ∈ blobA, Reach twoBlob a b := by
  intro a ha b hb
  rw [mem_blobA] at ha hb
  obtain ⟨x1, hx1, rfl⟩ := ha
  obtain ⟨x2, hx2, rfl⟩ := hb
  have hedge : ∀ i : ℕ, i < 50 → edgeAt twoBlob ((i : ℤ), 0) = true := by
    intro i hi
    rw [edgeAt_twoBlob]
    exact ⟨by omega, by omega, rfl, Or.inl (by omega)⟩
  rcases le_or_lt x1 x2 with hle | hlt
  · have h := reach_right twoBlob 0 x1 (x2 - x1) (fun i hi => hedge (x1 + i) (by omega))
    rw [show x1 + (x2 - x1) = x2 from by omega] at h
    exact h
  · have h := reach_left twoBlob 0 x2 (x1 - x2) (fun i hi => hedge (x2 + i) (by omega))
    rw [show x2 + (x1 - x2) = x1 from by omega] at h
    exact h

theorem twoBlob_connB : ∀ a ∈ blobB, ∀ b ∈ blobB, Reach twoBlob a b := by
  intro a ha b hb
  rw [mem_blobB] at ha hb
  obtain ⟨x1, hx1, rfl⟩ := ha
  obtain ⟨x2, hx2, rfl⟩ := hb
  have hedge : ∀ i : ℕ, 51 ≤ i → i < 56 → edgeAt twoBlob ((i : ℤ), 0) = true := by
    intro i hi1 hi2
    rw [edgeAt_twoBlob]
    exact ⟨by omega, by omega, rfl, Or.inr (by omega)⟩
  rcases le_or_lt x1 x2 with hle | hlt
  · have h := reach_right twoBlob 0 (51 + x1) (x2 - x1)
      (fun i hi => hedge (51 + x1 + i) (by omega) (by omega))
    rw [show 51 + x1 + (x2 - x1) = 51 + x2 from by omega] at h
    exact h
  · have h := reach_left twoBlob 0 (51 + x2) (x1 - x2)
      (fun i hi => hedge (51 + x2 + i) (by omega) (by omega))
    rw [show 51 + x2 + (x1 - x2) = 51 + x1 from by omega] at h
    exact h

theorem offsets_bound : ∀ d ∈ offsets, -1 ≤ d.1 ∧ d.1 ≤ 1 := by decide

theorem twoBlob_sepAB : ∀ a ∈ blobA, ∀ b ∈ blobB, ¬ adjp a b := by
  intro a ha b hb hadj
  rw [mem_blobA] at ha
  rw [mem_blobB] at hb
  obtain ⟨x1, hx1, rfl⟩ := ha
  obtain ⟨x2, hx2, rfl⟩ := hb
  obtain ⟨d, hd, heq⟩ := hadj
  have hb1 := offsets_bound d hd
  rw [Prod.mk.injEq] at heq
  have h1 := heq.1
  omega

theorem twoBlob_sepBA : ∀ b ∈ blobB, ∀ a ∈ blobA, ¬ adjp b a := by
  intro b hb a ha hadj
  rw [mem_blobA] at ha
  rw [mem_blobB] at hb
  obtain ⟨x1, hx1, rfl⟩ := ha
  obtain ⟨x2, hx2, rfl⟩ := hb
  obtain ⟨d, hd, heq⟩ := hadj
  have hb1 := offsets_bound d hd
  rw [Prod.mk.injEq] at heq
  have h1 := heq.1
  omega

theorem twoBlob_edge_iff :
    ∀ p : Pt, edgeAt twoBlob p = true ↔ p ∈ blobA ∨ p ∈ blobB := by
  intro p
  obtain ⟨x, y⟩ := p
  rw [edgeAt_twoBlob, mem_blobA, mem_blobB]
  constructor
  · rintro ⟨hx0, hx56, hy, hd⟩
    subst hy
    rcases hd with h | h
    · exact Or.inl ⟨x.toNat, by omega, by rw [Prod.mk.injEq]; exact ⟨by omega, rfl⟩⟩
    · exact Or.inr ⟨x.toNat - 51, by omega, by rw [Prod.mk.injEq]; exact ⟨by omega, rfl⟩⟩
  · rintro (⟨x1, hx1, heq⟩ | ⟨x1, hx1, heq⟩)
    · rw [Prod.mk.injEq] at heq
      obtain ⟨h1, h2⟩ := heq
      subst h1
      subst h2
      exact ⟨by omega, by omega, rfl, Or.inl (by omega)⟩
    · rw [Prod.mk.injEq] at heq
      obtain ⟨h1, h2⟩ := heq
      subst h1
      subst h2
      exact ⟨by omega, by omega, rfl, Or.inr (by omega)⟩

/-- C9 witness: on the concrete 56 × 1 mask `twoBlob` (a 50-pixel blob at
`x = 0 … 49` and a 5-pixel blob at `x = 51 … 55`), the scan emits exactly
one contour and its points are the 50-pixel blob. -/
theorem c9_witness :
    ∃ c, findContours twoBlob = [c] ∧ (∀ p, p ∈ c ↔ p ∈ blobA) ∧
      c.Nodup ∧ c.length = 50 :=
  c9_two_blobs twoBlob blobA blobB twoBlob_edge_iff blobA_card blobB_card
    twoBlob_connA twoBlob_connB twoBlob_sepAB twoBlob_sepBA


end FloorPlan
